import Mathlib

/-!
Verification of the mesh-network messaging/routing/retry core (crow-tech
client code) and of the hand-rolled promise combinator in promiseAll.js.

The JavaScript source is shallowly embedded: JS `Map`s become association
lists, the retry loop and the BFS worklist become fuelled / well-founded
recursions, and the asynchronous callback protocol is represented by the
settled outcomes the callbacks are invoked with.  JS-specific semantics the
code relies on are modelled explicitly where they matter: loose falsiness
(`null` and the empty string are falsy in `via || next` and `if (!via)`),
`JSON.stringify` structural comparison, and `Array.prototype` lacking an
`add` method.
-/

namespace Chapter11

/-! ## JS Map as an association list (insertion order preserved) -/

/-- The topology table `nest.state.connections`: a JS `Map` from node name to
that node's neighbor list, modelled as an association list in insertion
order (Map keys are unique). -/
abbrev ConnMap := List (String × List String)

/-- `connections.get(k)`: `some` the stored list, `none` for `undefined`. -/
def mapGet (m : ConnMap) (k : String) : Option (List String) :=
  (m.find? (fun p => p.1 == k)).map Prod.snd

/-- `connections.set(k, v)`: overwrite the existing entry in place, else
append (JS `Map.set` keeps insertion order). -/
def mapSet (m : ConnMap) (k : String) (v : List String) : ConnMap :=
  if m.any (fun p => p.1 == k) then
    m.map (fun p => if p.1 == k then (k, v) else p)
  else m ++ [(k, v)]

/-! ## The Request/Retry Engine (`request`, part_000 lines 32-50)

The transport callback protocol is abstracted as `cb : Nat → Option (Except ε α)`:
`cb n` is the settled outcome the attempt-`n` callback delivers before the
250-unit timer fires, or `none` when no callback arrives in time (loss). -/

/-- Final outcome of one `request` call: resolve, reject with the transport
failure, or reject with the `Timeout` error. -/
inductive ReqOutcome (ε α : Type) where
  | ok (v : α)
  | err (e : ε)
  | timeout
deriving DecidableEq

/-- One `attempt(n)` of `request`: issue the send; if the callback fires,
`done` is set and the outcome settles; otherwise the 250-unit timer runs out
and, if `n < 3`, `attempt(n+1)` is issued, else the promise rejects with
`Timeout`. -/
def attempt (cb : Nat → Option (Except ε α)) (n : Nat) : ReqOutcome ε α :=
  match cb n with
  | some (.ok v) => .ok v
  | some (.error e) => .err e
  | none => if h : n < 3 then attempt cb (n + 1) else .timeout
termination_by 3 - n
decreasing_by omega

/-- `request(nest, target, type, content)` starts at `attempt(1)`. -/
def request (cb : Nat → Option (Except ε α)) : ReqOutcome ε α :=
  attempt cb 1

/-- The instants (time units after the initial send) at which `attempt`
issues transport sends, starting from attempt `n` at time `t`: each retry is
scheduled by a fixed 250-unit `setTimeout` with no backoff. -/
def sendTimes (cb : Nat → Option (Except ε α)) (n : Nat) (t : Nat) : List Nat :=
  t :: (match cb n with
    | some _ => []
    | none => if h : n < 3 then sendTimes cb (n + 1) (t + 250) else [])
termination_by 3 - n
decreasing_by omega

/-! ## The Dispatcher adapter (`requestType`, part_000 lines 57-67) -/

/-- What one handler invocation does, as observed by the `requestType`
wrapper: return a plain value, return a (settled) promise, or raise
synchronously. -/
inductive HandlerBehavior (ε α : Type) where
  | ret (v : α)
  | retPromise (p : Except ε α)
  | raise (e : ε)

/-- A JS value that may or may not be a promise, as handed to
`Promise.resolve`. -/
inductive JsValue (ε α : Type) where
  | plain (v : α)
  | promise (p : Except ε α)

/-- Evaluating `handler(nest, content, source)` inside the `try`: either it
raises, or it yields a value (plain or promise). -/
def evalHandler : HandlerBehavior ε α → Except ε (JsValue ε α)
  | .ret v => .ok (.plain v)
  | .retPromise p => .ok (.promise p)
  | .raise e => .error e

/-- `Promise.resolve(x)`: adopt a promise unchanged, wrap a plain value as a
resolved promise. -/
def promiseResolve : JsValue ε α → Except ε α
  | .plain v => .ok v
  | .promise p => p

/-- The transport completion callback, invoked as `callback(null, response)`
on success or `callback(failure)` on failure. -/
inductive CallbackCall (ε α : Type) where
  | success (v : α)
  | failure (e : ε)
deriving DecidableEq

/-- The `.then(response => callback(null, response), failure => callback(failure))`
stage of the wrapper. -/
def thenCallback : Except ε α → CallbackCall ε α
  | .ok v => .success v
  | .error e => .failure e

/-- The wrapper `requestType` installs: `try { Promise.resolve(handler(...))
.then(ok, fail) } catch (exception) { callback(exception) }`. -/
def requestTypeWrapper (h : HandlerBehavior ε α) : CallbackCall ε α :=
  match evalHandler h with
  | .error e => .failure e
  | .ok v => thenCallback (promiseResolve v)

/-! ## Per-node state and outbound sends -/

/-- Content of an outbound request.  A "connections" payload carries
`nest.state.connections.get(name)`, which is `undefined` (`none`) when the
key is absent. -/
inductive Content where
  | str (s : String)
  | connList (name : String) (neighbors : Option (List String))
  | route (target : String) (rtype : String) (inner : Content)
deriving DecidableEq

/-- One fire-and-forget `request(nest, target, type, content)` issued by a
handler (the outcome is discarded by the gossip/topology services). -/
structure Send where
  target : String
  rtype : String
  content : Content
deriving DecidableEq

/-- A nest as the client code sees it: transport identity and neighbor list,
plus the mutable per-node state `state.gossip` (an array, in push order) and
`state.connections`, and the local key-value storage. -/
structure Nest where
  name : String
  neighbors : List String
  gossip : List String
  connections : ConnMap
  storage : String → Option String

/-! ## Gossip Service (`sendGossip` lines 98-104, handler lines 106-110) -/

/-- `sendGossip(nest, message, exceptFor)`: push the message onto
`nest.state.gossip` (an array push, unconditional), then request "gossip" to
every neighbor whose name is not loosely equal to `exceptFor` (a string
never equals `null`). -/
def sendGossip (nest : Nest) (message : String) (exceptFor : Option String) :
    Nest × List Send :=
  ({ nest with gossip := nest.gossip ++ [message] },
   (nest.neighbors.filter (fun nb => !(some nb == exceptFor))).map
     (fun nb => ⟨nb, "gossip", .str message⟩))

/-- The "gossip" handler: a message already in `nest.state.gossip` is
dropped; otherwise it is recorded and re-flooded with `exceptFor = source`. -/
def gossipHandler (nest : Nest) (message : String) (source : String) :
    Nest × List Send :=
  if nest.gossip.contains message then (nest, [])
  else sendGossip nest message (some source)

/-! ## Topology Service (`broadcastConnections` lines 129-137, handler 112-121) -/

/-- The handler's guard `JSON.stringify(connections.get(name)) ==
JSON.stringify(neighbors)`: stringify is injective on lists of strings, and
`JSON.stringify(undefined)` is the value `undefined`, never equal to a
string, so an absent entry never compares equal to an incoming list. -/
def connEq : Option (List String) → List String → Bool
  | none, _ => false
  | some l, l' => l == l'

/-- `broadcastConnections(nest, name, exceptFor)`: request "connections"
with `{name, neighbors: nest.state.connections.get(name)}` to every neighbor
not loosely equal to `exceptFor`. -/
def broadcastConnections (nest : Nest) (name : String) (exceptFor : Option String) :
    List Send :=
  (nest.neighbors.filter (fun nb => !(some nb == exceptFor))).map
    (fun nb => ⟨nb, "connections", .connList name (mapGet nest.connections name)⟩)

/-- The "connections" handler for a well-formed update `{name, neighbors}`:
no-op when the stored entry compares structurally equal, else set the entry
and rebroadcast it with `exceptFor = source`. -/
def connectionsHandler (nest : Nest) (name : String) (neighbors : List String)
    (source : String) : Nest × List Send :=
  if connEq (mapGet nest.connections name) neighbors then (nest, [])
  else
    let nest' := { nest with connections := mapSet nest.connections name neighbors }
    (nest', broadcastConnections nest' name (some source))

/-! ## Group (part_000 lines 259-270) -/

/-- The errors JS raises at runtime that this development needs. -/
inductive JsError where
  | typeError
deriving DecidableEq

/-- `new Group()` sets `this.members = []` — an Array, not a Set. -/
structure Group where
  members : List String

def Group.new : Group := ⟨[]⟩

/-- Property lookup of `add` on an Array: `Array.prototype` has no `add`
method (that is the `Set` API), so the lookup yields `undefined`. -/
def arrayAddMethod : Option (List String → String → List String) := none

/-- `Group.prototype.add` calls `this.members.add(m)`; calling the
`undefined` property raises a `TypeError`. -/
def Group.add (g : Group) (m : String) : Except JsError Group :=
  match arrayAddMethod with
  | none => .error .typeError
  | some f => .ok ⟨f g.members m⟩

/-! ## Router (`findRoute` lines 152-173, `routeRequest` lines 183-196) -/

/-- The JS expression `via || next`: `via` is falsy when it is `null` or the
empty string, in which case the right operand is taken. -/
def jsOrVia : Option String → String → String
  | none, next => next
  | some v, next => if v == "" then next else v

/-- One entry of the `work` list: a node (`at` in the source) together with
the first hop taken from the origin (`via`, `null` on the initial entry). -/
structure WItem where
  atNode : String
  via : Option String
deriving DecidableEq

/-- `connections.get(at) || []` (an array, even empty, is truthy; only the
`undefined` of an absent key falls back to `[]`). -/
def getConn (connections : ConnMap) (a : String) : List String :=
  (mapGet connections a).getD []

/-- Result of scanning the neighbor list of the current work item. -/
inductive ScanResult where
  | found (via : Option String)
  | cont (work : List WItem)
deriving DecidableEq

/-- The inner `for (let next of connections.get(at) || [])` loop: return
`via` the moment the target is seen; push nodes not yet in `work` (visited
is keyed by node name, `work.some(w => w.at == next)`) with first hop
`via || next`. -/
def scanNbrs (toNode : String) (via : Option String) :
    List String → List WItem → ScanResult
  | [], work => .cont work
  | next :: rest, work =>
    if next == toNode then .found via
    else if work.any (fun w => w.atNode == next) then scanNbrs toNode via rest work
    else scanNbrs toNode via rest (work ++ [⟨next, some (jsOrVia via next)⟩])

/-- The outer `for (let i = 0; i < work.length; i++)` loop, fuelled: `none`
means the fuel ran out (shown impossible for the fuel `findRoute` supplies),
`some r` means the loop finished with result `r` (`some none` models the
final `return null`). -/
def findRouteAux (connections : ConnMap) (toNode : String) :
    Nat → List WItem → Nat → Option (Option String)
  | 0, _, _ => none
  | fuel + 1, work, i =>
    if h : i < work.length then
      match scanNbrs toNode (work.get ⟨i, h⟩).via
          (getConn connections (work.get ⟨i, h⟩).atNode) work with
      | .found v => some v
      | .cont work' => findRouteAux connections toNode fuel work' (i + 1)
    else some none

/-- Fuel that always suffices: the work list never exceeds one entry for the
origin plus one per occurrence of a name in some neighbor list. -/
def routeFuel (connections : ConnMap) : Nat :=
  (connections.map Prod.snd).flatten.length + 2

/-- `findRoute(from, to, connections)`. -/
def findRoute (fromNode toNode : String) (connections : ConnMap) : Option String :=
  (findRouteAux connections toNode (routeFuel connections) [⟨fromNode, none⟩] 0).getD none

/-- What `routeRequest` does with its arguments: delegate one
`request(nest, sendTo, sendType, sendContent)` to the Request/Retry Engine,
or throw `No route to target`. -/
inductive RouteAction where
  | send (sendTo sendType : String) (sendContent : Content)
  | noRoute (target : String)
deriving DecidableEq

/-- `routeRequest(nest, target, type, content)`: targets in the transport
neighbor list are requested directly; otherwise `findRoute` is consulted and
its result goes through the falsy test `if (!via)` — both `null` and the
empty string throw `No route` — else the payload is wrapped in a "route"
envelope `{target, type, content}` addressed to the computed next hop. -/
def routeRequest (nest : Nest) (target rtype : String) (content : Content) :
    RouteAction :=
  if nest.neighbors.contains target then .send target rtype content
  else
    match findRoute nest.name target nest.connections with
    | none => .noRoute target
    | some v =>
      if v == "" then .noRoute target
      else .send v "route" (.route target rtype content)

/-- The "route" handler re-invokes `routeRequest` at the relaying nest. -/
def routeHandler (nest : Nest) (target rtype : String) (content : Content) :
    RouteAction :=
  routeRequest nest target rtype content

/-! ## Distributed Lookup (`findInStorage` lines 214-219,
`findInRemoteStorage` lines 236-254) -/

/-- What one attempted remote read `routeRequest(nest, source, "storage",
name)` looks like to the `next()` closure.  `routeRequest` can throw
synchronously (`throw new Error(...)` on a falsy hop) — that happens before
the `.then(value => ..., next)` handlers are ever attached, so the exception
escapes `next()` and aborts the whole lookup.  Otherwise a request promise
is produced, which either rejects (handled by the second `.then` argument)
or resolves with a value or null. -/
inductive RemoteRead where
  | throws (e : String)
  | rejects
  | resolves (v : Option String)
deriving DecidableEq

/-- The routed read for candidate `s`, driven by the embedded
`routeRequest`: a `.noRoute` outcome is the synchronous `No route to
${target}` throw; when `routeRequest` instead issues a request,
`transport s` gives that request promise's settled outcome — `.error` for a
rejection (a Timeout, or a failure raised remotely, including a relay's own
NoRoute throw, which the dispatcher's try/catch converts into an error
callback), `.ok` for resolution with a value or null. -/
def remoteRead (nest : Nest) (key : String)
    (transport : String → Except Unit (Option String)) (s : String) :
    RemoteRead :=
  match routeRequest nest s "storage" (.str key) with
  | .noRoute t => .throws ("No route to " ++ t)
  | .send _ _ _ =>
    match transport s with
    | .error _ => .rejects
    | .ok v => .resolves v

/-- A `filter` removing an element that is present strictly shrinks a list. -/
theorem length_filter_ne_lt {l : List String} {a : String} (ha : a ∈ l) :
    (l.filter (fun n => n != a)).length < l.length := by
  induction l with
  | nil => cases ha
  | cons b t ih =>
    by_cases hb : b = a
    · subst hb
      simp only [List.filter_cons, bne_self_eq_false, Bool.false_eq_true, if_false,
        List.length_cons]
      exact Nat.lt_succ_of_le (List.length_filter_le _ t)
    · have hat : a ∈ t := by
        rcases List.mem_cons.mp ha with h | h
        · exact absurd h.symm hb
        · exact h
      simp only [List.filter_cons, bne_iff_ne, ne_eq, hb, not_false_eq_true,
        if_true, List.length_cons]
      simpa using Nat.succ_lt_succ (by simpa using ih hat)

/-- The recursive `next()` closure of `findInRemoteStorage`: exhausted
candidates reject with `Not found`; otherwise a random remaining candidate
is picked (`Math.floor(Math.random() * sources.length)` is uniform on
`[0, length)`, modelled as `pick k % sources.length`) and removed from the
candidate list.  A read that throws synchronously aborts the lookup with
that error (nothing catches it before it escapes `next()`); a null result
or a rejected read fall through to the next candidate. -/
def nextSource (env : String → RemoteRead) (pick : Nat → Nat) (k : Nat)
    (sources : List String) : Except String String :=
  if hs : sources.length = 0 then .error "Not found"
  else
    match env (sources.get ⟨pick k % sources.length,
        Nat.mod_lt _ (Nat.pos_of_ne_zero hs)⟩) with
    | .throws e => .error e
    | .resolves (some value) => .ok value
    | .resolves none =>
      nextSource env pick (k + 1) (sources.filter (fun n =>
        n != sources.get ⟨pick k % sources.length, Nat.mod_lt _ (Nat.pos_of_ne_zero hs)⟩))
    | .rejects =>
      nextSource env pick (k + 1) (sources.filter (fun n =>
        n != sources.get ⟨pick k % sources.length, Nat.mod_lt _ (Nat.pos_of_ne_zero hs)⟩))
termination_by sources.length
decreasing_by
  all_goals exact length_filter_ne_lt (List.get_mem sources _ _)

/-- `network(nest)`: `Array.from(nest.state.connections.keys())`. -/
def network (nest : Nest) : List String := nest.connections.map Prod.fst

/-- `findInRemoteStorage(nest, name)`: the candidates are all known node
names except the nest's own; each is read via `routeRequest`. -/
def findInRemoteStorage (nest : Nest) (key : String)
    (transport : String → Except Unit (Option String)) (pick : Nat → Nat) :
    Except String String :=
  nextSource (remoteRead nest key transport) pick 0
    ((network nest).filter (fun n => n != nest.name))

/-- `findInStorage(nest, name)`: read locally first and return any non-null
value; otherwise search the rest of the network. -/
def findInStorage (nest : Nest) (key : String)
    (transport : String → Except Unit (Option String)) (pick : Nat → Nat) :
    Except String String :=
  match nest.storage key with
  | some found => .ok found
  | none => findInRemoteStorage nest key transport pick

/-! ## `Promise_all` (promiseAll.js lines 28-55)

Input promises are given by their eventual settled outcomes, and a run of
the combinator is driven by the temporal order in which they settle. -/

/-- State of the promise returned by `Promise_all`: the sparse `results`
array, the `remaining` counter, and the settled outcome if any (a promise
settles at most once: the first `resolve`/`reject` wins). -/
structure PAState (ε α : Type) where
  results : List (Option α)
  remaining : Nat
  outcome : Option (Except ε (List (Option α)))

/-- A call to the executor's `resolve` or `reject`: recorded only if the
promise has not settled yet. -/
def trySettle (st : PAState ε α) (o : Except ε (List (Option α))) : PAState ε α :=
  match st.outcome with
  | some _ => st
  | none => { st with outcome := some o }

/-- Input promise `i` settles: its `.then` stores the value at index `i`,
decrements `remaining` and resolves with the updated array when the counter
reaches zero; its `.catch` rejects immediately with the reason. -/
def paStep (ps : List (Except ε α)) (st : PAState ε α) (i : Fin ps.length) :
    PAState ε α :=
  match ps.get i with
  | .ok v =>
      if st.remaining - 1 = 0 then
        trySettle { st with results := st.results.set i.val (some v),
                            remaining := st.remaining - 1 }
          (.ok (st.results.set i.val (some v)))
      else
        { st with results := st.results.set i.val (some v),
                  remaining := st.remaining - 1 }
  | .error e => trySettle st (.error e)

/-- The executor body before any promise settles: initialize `results` and
`remaining`, and resolve immediately when the input array is empty. -/
def paInit (ps : List (Except ε α)) : PAState ε α :=
  let st : PAState ε α := ⟨List.replicate ps.length none, ps.length, none⟩
  if ps.length = 0 then trySettle st (.ok st.results) else st

/-- `Promise_all(promises)` run to completion against the settle order
`order`: the outcome of the returned promise after the events in `order`
have fired. -/
def Promise_all (ps : List (Except ε α)) (order : List (Fin ps.length)) :
    Option (Except ε (List (Option α))) :=
  (order.foldl (paStep ps) (paInit ps)).outcome

/-! ## Graph-theoretic specification vocabulary for the Router

These predicates are the specification side only; the executable code side
is `findRoute` above. -/

/-- A walk of length `n` from `a` to `b` along the neighbor links recorded
in `connections` (an absent entry contributes no links, like
`connections.get(at) || []`). -/
inductive Walk (connections : ConnMap) : String → String → Nat → Prop where
  | refl (a : String) : Walk connections a a 0
  | step {a b c : String} {n : Nat} (hab : b ∈ getConn connections a)
      (hbc : Walk connections b c n) : Walk connections a c (n + 1)

/-- `b` can be reached from `a` in the topology `connections`. -/
def Reachable (connections : ConnMap) (a b : String) : Prop :=
  ∃ n, Walk connections a b n

/-- `n` is the exact hop count of a shortest walk from `a` to `b`. -/
def MinWalk (connections : ConnMap) (a b : String) (n : Nat) : Prop :=
  Walk connections a b n ∧ ∀ m, Walk connections a b m → n ≤ m

/-- Invariant of the `findRoute` worklist loop at state `(work, i)`:
entries before index `i` are processed.  It packages what the BFS argument
needs: the head is the origin, node names never repeat (the visited set),
the target never enters the list, every entry past the head records a first
hop from the origin that realizes a shortest walk to it, entries appear in
nondecreasing distance order within a band of width one around the current
entry, all neighbors of processed entries are discovered and differ from the
target, every node at distance at most the current entry's is discovered,
and every entry is the origin or appears in some neighbor list. -/
structure RInv (conn : ConnMap) (fromNode toNode : String)
    (work : List WItem) (i : Nat) : Prop where
  hile : i ≤ work.length
  hhead : work.head? = some ⟨fromNode, none⟩
  hnodup : (work.map WItem.atNode).Nodup
  hto : ∀ w ∈ work, w.atNode ≠ toNode
  hvia : ∀ j (hj : j < work.length), 0 < j →
    ∃ v m, (work.get ⟨j, hj⟩).via = some v ∧ v ∈ getConn conn fromNode
      ∧ MinWalk conn fromNode (work.get ⟨j, hj⟩).atNode (m + 1)
      ∧ Walk conn v (work.get ⟨j, hj⟩).atNode m
  hreach : ∀ w ∈ work, ∃ d, MinWalk conn fromNode w.atNode d
  hsorted : ∀ j k (hj : j < work.length) (hk : k < work.length), j ≤ k →
    ∀ dj dk, MinWalk conn fromNode (work.get ⟨j, hj⟩).atNode dj →
      MinWalk conn fromNode (work.get ⟨k, hk⟩).atNode dk → dj ≤ dk
  hband : ∀ (hcur : i < work.length) j (hj : j < work.length) (di dj : Nat),
    MinWalk conn fromNode (work.get ⟨i, hcur⟩).atNode di →
    MinWalk conn fromNode (work.get ⟨j, hj⟩).atNode dj → dj ≤ di + 1
  hclosed : ∀ j (hj : j < work.length), j < i →
    ∀ x ∈ getConn conn (work.get ⟨j, hj⟩).atNode,
      x ≠ toNode ∧ x ∈ work.map WItem.atNode
  hcomplete : ∀ (hcur : i < work.length) (x : String) (n di : Nat),
    MinWalk conn fromNode x n →
    MinWalk conn fromNode (work.get ⟨i, hcur⟩).atNode di →
    n ≤ di → x ∈ work.map WItem.atNode
  hsub : ∀ w ∈ work, w.atNode = fromNode ∨ w.atNode ∈ (conn.map Prod.snd).flatten

/-!
# Theorems

One theorem per claim of the specification review, with supporting lemmas.
-/

/-! ## C1: retry bound of the Request/Retry Engine -/

/-- C1: a `request` whose transport send never invokes its completion
callback makes exactly 3 attempts — the sends go out at instants 0, 250 and
500, consecutive attempts separated by the fixed 250-unit timer with no
backoff — and then fails with the `Timeout` error. -/
theorem request_lost_times_out (cb : Nat → Option (Except ε α))
    (hlost : ∀ n, cb n = none) :
    request cb = ReqOutcome.timeout
    ∧ sendTimes cb 1 0 = [0, 250, 500]
    ∧ (sendTimes cb 1 0).length = 3 := by
  refine ⟨?_, ?_, ?_⟩
  · show attempt cb 1 = _
    simp [attempt, hlost]
  · simp [sendTimes, hlost]
  · simp [sendTimes, hlost]

/-- Witness for C1 at the transport that drops every send. -/
theorem request_lost_times_out_witness :
    request (fun _ => (none : Option (Except Unit Unit))) = ReqOutcome.timeout
    ∧ sendTimes (fun _ => (none : Option (Except Unit Unit))) 1 0 = [0, 250, 500]
    ∧ (sendTimes (fun _ => (none : Option (Except Unit Unit))) 1 0).length = 3 :=
  request_lost_times_out _ (fun _ => rfl)

/-! ## C7: the dispatcher normalizes handler results -/

/-- C7: for every dispatch through the `requestType` wrapper, a plain return
value becomes a success callback with that value, a resolved promise becomes
a success with the resolved value, a rejected promise becomes a failure with
the rejection reason, and a synchronous raise becomes a failure with the
raised error — all through the same completion callback. -/
theorem requestTypeWrapper_normalizes (ε α : Type) :
    (∀ v : α, (requestTypeWrapper (.ret v) : CallbackCall ε α) = .success v)
    ∧ (∀ v : α, (requestTypeWrapper (.retPromise (.ok v)) : CallbackCall ε α) = .success v)
    ∧ (∀ e : ε, (requestTypeWrapper (.retPromise (.error e)) : CallbackCall ε α) = .failure e)
    ∧ (∀ e : ε, (requestTypeWrapper (.raise e) : CallbackCall ε α) = .failure e) :=
  ⟨fun _ => rfl, fun _ => rfl, fun _ => rfl, fun _ => rfl⟩

/-! ## C4: the gossip handler floods new messages once -/

/-- C4: the "gossip" handler at nest `N` receiving message `M` from source
`S` is a no-op (no state change, no sends) when `M` is already in the
seen-list, and otherwise records `M` and re-sends a "gossip" request with
content `M` to every neighbor of `N` except `S`. -/
theorem gossipHandler_spec (nest : Nest) (message source : String) :
    (message ∈ nest.gossip → gossipHandler nest message source = (nest, []))
    ∧ (message ∉ nest.gossip →
        (gossipHandler nest message source).1 =
          { nest with gossip := nest.gossip ++ [message] }
        ∧ (gossipHandler nest message source).2 =
            (nest.neighbors.filter (fun nb => nb != source)).map
              (fun nb => ⟨nb, "gossip", Content.str message⟩)) := by
  constructor
  · intro hmem
    simp [gossipHandler, hmem]
  · intro hmem
    constructor
    · simp [gossipHandler, hmem, sendGossip]
    · simp only [gossipHandler, sendGossip]
      rw [if_neg]
      · rfl
      · simp [hmem]

/-- Witness for C4: a seen message is dropped, an unseen one floods to the
neighbors other than the source. -/
theorem gossipHandler_spec_witness :
    gossipHandler ⟨"A", ["B", "S"], ["m"], [], fun _ => none⟩ "m" "S" =
      (⟨"A", ["B", "S"], ["m"], [], fun _ => none⟩, [])
    ∧ (gossipHandler ⟨"A", ["B", "S"], ["m"], [], fun _ => none⟩ "x" "S").1 =
        { (⟨"A", ["B", "S"], ["m"], [], fun _ => none⟩ : Nest) with
            gossip := ["m", "x"] }
    ∧ (gossipHandler ⟨"A", ["B", "S"], ["m"], [], fun _ => none⟩ "x" "S").2 =
        [⟨"B", "gossip", Content.str "x"⟩] := by
  refine ⟨(gossipHandler_spec _ "m" "S").1 (by decide), ?_, ?_⟩
  · exact ((gossipHandler_spec _ "x" "S").2 (by decide)).1
  · have h := ((gossipHandler_spec ⟨"A", ["B", "S"], ["m"], [], fun _ => none⟩
      "x" "S").2 (by decide)).2
    rw [h]
    rfl

/-! ## C5: the connections handler updates and rebroadcasts on change only -/

/-- Setting a key makes it readable: `connections.get(name)` after
`connections.set(name, v)` is `v`. -/
theorem mapGet_mapSet (m : ConnMap) (k : String) (v : List String) :
    mapGet (mapSet m k v) k = some v := by
  unfold mapSet
  by_cases h : m.any (fun p => p.1 == k) = true
  · rw [if_pos h]
    unfold mapGet
    rw [List.find?_map]
    have hpf : ((fun p : String × List String => p.1 == k) ∘
        (fun p : String × List String => if p.1 == k then (k, v) else p)) =
        fun p : String × List String => p.1 == k := by
      funext p
      by_cases hp : (p.1 == k) = true
      · simp [Function.comp, hp]
      · simp [Function.comp, hp]
    rw [hpf]
    have hsome : (m.find? (fun p => p.1 == k)).isSome = true :=
      List.find?_isSome.mpr (List.any_eq_true.mp h)
    obtain ⟨b, hb⟩ := Option.isSome_iff_exists.mp hsome
    have hbk := List.find?_some hb
    rw [hb]
    simp [hbk, beq_iff_eq.mp hbk]
  · rw [if_neg h]
    unfold mapGet
    rw [List.find?_append]
    have hnone : m.find? (fun p => p.1 == k) = none := by
      cases hf : m.find? (fun p => p.1 == k) with
      | none => rfl
      | some b =>
        exact absurd (List.any_eq_true.mpr
          ⟨b, List.mem_of_find?_eq_some hf, List.find?_some hf⟩) h
    rw [hnone]
    simp [List.find?_cons]

/-- C5: the "connections" handler at nest `N` receiving `{name, neighbors}`
from source `S` compares the incoming list structurally to the current table
entry: if identical it is a no-op (no table change, no sends — so
re-delivering the same update never rebroadcasts), otherwise it replaces the
entry and rebroadcasts the new entry to every neighbor of `N` except `S`. -/
theorem connectionsHandler_spec (nest : Nest) (name : String)
    (neighbors : List String) (source : String) :
    (mapGet nest.connections name = some neighbors →
      connectionsHandler nest name neighbors source = (nest, []))
    ∧ (mapGet nest.connections name ≠ some neighbors →
        (connectionsHandler nest name neighbors source).1 =
          { nest with connections := mapSet nest.connections name neighbors }
        ∧ mapGet (connectionsHandler nest name neighbors source).1.connections name =
            some neighbors
        ∧ (connectionsHandler nest name neighbors source).2 =
            (nest.neighbors.filter (fun nb => nb != source)).map
              (fun nb => ⟨nb, "connections", Content.connList name (some neighbors)⟩))
    ∧ (∀ source2 : String,
        connectionsHandler (connectionsHandler nest name neighbors source).1
          name neighbors source2 =
          ((connectionsHandler nest name neighbors source).1, [])) := by
  have hset := mapGet_mapSet nest.connections name neighbors
  refine ⟨?_, ?_, ?_⟩
  · intro heq
    simp [connectionsHandler, connEq, heq]
  · intro hne
    have hcf : connEq (mapGet nest.connections name) neighbors = false := by
      cases hg : mapGet nest.connections name with
      | none => rfl
      | some l =>
        have : l ≠ neighbors := fun hl => hne (by rw [hg, hl])
        simpa [connEq] using this
    refine ⟨?_, ?_, ?_⟩
    · simp [connectionsHandler, hcf]
    · simp [connectionsHandler, hcf, hset]
    · simp only [connectionsHandler, hcf, Bool.false_eq_true, if_false,
        broadcastConnections, hset]
      rfl
  · intro source2
    by_cases heq : mapGet nest.connections name = some neighbors
    · have h1 : connectionsHandler nest name neighbors source = (nest, []) := by
        simp [connectionsHandler, connEq, heq]
      rw [h1]
      simp [connectionsHandler, connEq, heq]
    · have hcf : connEq (mapGet nest.connections name) neighbors = false := by
        cases hg : mapGet nest.connections name with
        | none => rfl
        | some l =>
          have : l ≠ neighbors := fun hl => heq (by rw [hg, hl])
          simpa [connEq] using this
      have h1 : (connectionsHandler nest name neighbors source).1 =
          { nest with connections := mapSet nest.connections name neighbors } := by
        simp [connectionsHandler, hcf]
      rw [h1]
      simp [connectionsHandler, connEq, hset]

/-- Witness for C5: an update equal to the stored entry is dropped; a
changed one replaces the entry and rebroadcasts to the neighbors other than
the source, and re-delivery after the update is a no-op. -/
theorem connectionsHandler_spec_witness :
    connectionsHandler ⟨"A", ["B", "S"], [], [("C", ["D"])], fun _ => none⟩
        "C" ["D"] "S" =
      (⟨"A", ["B", "S"], [], [("C", ["D"])], fun _ => none⟩, [])
    ∧ (connectionsHandler ⟨"A", ["B", "S"], [], [("C", ["D"])], fun _ => none⟩
        "C" ["D", "E"] "S").2 =
        [⟨"B", "connections", Content.connList "C" (some ["D", "E"])⟩]
    ∧ connectionsHandler
        (connectionsHandler ⟨"A", ["B", "S"], [], [("C", ["D"])], fun _ => none⟩
          "C" ["D", "E"] "S").1 "C" ["D", "E"] "B" =
        ((connectionsHandler ⟨"A", ["B", "S"], [], [("C", ["D"])], fun _ => none⟩
          "C" ["D", "E"] "S").1, []) := by
  refine ⟨(connectionsHandler_spec _ "C" ["D"] "S").1 (by decide), ?_, ?_⟩
  · have h := ((connectionsHandler_spec
      ⟨"A", ["B", "S"], [], [("C", ["D"])], fun _ => none⟩ "C" ["D", "E"] "S").2.1
      (by decide)).2.2
    rw [h]
    rfl
  · exact (connectionsHandler_spec
      ⟨"A", ["B", "S"], [], [("C", ["D"])], fun _ => none⟩ "C" ["D", "E"] "S").2.2 "B"

/-! ## C8: recording in the gossip seen-list is not an idempotent add -/

/-- Counterexample to C8 as stated: `sendGossip` pushes unconditionally, so
broadcasting a message already in the seen-list appends a duplicate — the
list's content changes and the message is now present twice. -/
theorem sendGossip_seen_counterexample :
    "m" ∈ (⟨"A", [], ["m"], [], fun _ => none⟩ : Nest).gossip
    ∧ (sendGossip ⟨"A", [], ["m"], [], fun _ => none⟩ "m" none).1.gossip = ["m", "m"]
    ∧ (sendGossip ⟨"A", [], ["m"], [], fun _ => none⟩ "m" none).1.gossip ≠ ["m"]
    ∧ ((sendGossip ⟨"A", [], ["m"], [], fun _ => none⟩ "m" none).1.gossip.count "m") = 2 := by
  refine ⟨by decide, rfl, by decide, by decide⟩

/-- C8 amended: broadcasting a message already in the seen-list leaves the
seen-list's membership unchanged — the same set of messages is seen, and in
particular nothing is ever removed — although the backing array gains a
duplicate occurrence of the message. -/
theorem sendGossip_seen_membership (nest : Nest) (message : String)
    (exceptFor : Option String) (hseen : message ∈ nest.gossip) :
    ∀ x, x ∈ (sendGossip nest message exceptFor).1.gossip ↔ x ∈ nest.gossip := by
  intro x
  simp only [sendGossip, List.mem_append, List.mem_singleton]
  constructor
  · rintro (hx | rfl)
    · exact hx
    · exact hseen
  · intro hx
    exact Or.inl hx

/-- Witness for C8's amended statement. -/
theorem sendGossip_seen_membership_witness :
    "m" ∈ (⟨"A", [], ["m"], [], fun _ => none⟩ : Nest).gossip
    ∧ (∀ x, x ∈ (sendGossip ⟨"A", [], ["m"], [], fun _ => none⟩ "m" none).1.gossip
        ↔ x ∈ (⟨"A", [], ["m"], [], fun _ => none⟩ : Nest).gossip) :=
  ⟨by decide, sendGossip_seen_membership _ "m" none (by decide)⟩

/-! ## C10: Group.add always raises -/

/-- C10: a `Group` is constructed with an Array `members`, Arrays have no
`add` method, so every call to `add` raises a `TypeError` and no member is
ever successfully added. -/
theorem Group_add_raises :
    Group.new.members = []
    ∧ (∀ (g : Group) (m : String), Group.add g m = .error .typeError)
    ∧ (∀ (g : Group) (m : String) (g' : Group), Group.add g m ≠ .ok g') :=
  ⟨rfl, fun _ _ => rfl, fun _ _ _ h => by cases h⟩

/-! ## C6: the distributed lookup -/

/-- Exhaustion: when every remaining candidate's read either rejects or
resolves null (and none throws), the `next()` recursion rejects with
`Not found`. -/
theorem nextSource_exhausted (pick : Nat → Nat) :
    ∀ (fuel : Nat) (env : String → RemoteRead) (sources : List String),
      sources.length ≤ fuel →
      (∀ s ∈ sources, env s = .rejects ∨ env s = .resolves none) →
      ∀ k, nextSource env pick k sources = .error "Not found" := by
  intro fuel
  induction fuel with
  | zero =>
    intro env sources hlen _ k
    have h0 : sources.length = 0 := Nat.le_zero.mp hlen
    rw [nextSource]
    simp [h0]
  | succ f ih =>
    intro env sources hlen henv k
    rw [nextSource]
    split
    · rfl
    · split
      · rename_i heq
        rcases henv _ (List.get_mem sources _ _) with he | he <;> rw [he] at heq <;>
          cases heq
      · rename_i heq
        rcases henv _ (List.get_mem sources _ _) with he | he <;> rw [he] at heq <;>
          cases heq
      · apply ih
        · exact Nat.le_of_lt_succ (Nat.lt_of_lt_of_le
            (length_filter_ne_lt (List.get_mem _ _ _)) hlen)
        · intro s hs
          exact henv s (List.mem_of_mem_filter hs)
      · apply ih
        · exact Nat.le_of_lt_succ (Nat.lt_of_lt_of_le
            (length_filter_ne_lt (List.get_mem _ _ _)) hlen)
        · intro s hs
          exact henv s (List.mem_of_mem_filter hs)

/-- Soundness of a successful lookup: the value returned by `next()` came
from some candidate in the remaining list whose read resolved non-null. -/
theorem nextSource_ok_source (pick : Nat → Nat) :
    ∀ (fuel : Nat) (env : String → RemoteRead) (sources : List String),
      sources.length ≤ fuel →
      ∀ k v, nextSource env pick k sources = .ok v →
        ∃ s ∈ sources, env s = .resolves (some v) := by
  intro fuel
  induction fuel with
  | zero =>
    intro env sources hlen k v hok
    have h0 : sources.length = 0 := Nat.le_zero.mp hlen
    rw [nextSource] at hok
    simp [h0] at hok
  | succ f ih =>
    intro env sources hlen k v hok
    rw [nextSource] at hok
    split at hok
    · cases hok
    · split at hok
      · cases hok
      · rename_i heq
        cases hok
        exact ⟨_, List.get_mem sources _ _, heq⟩
      · obtain ⟨s, hs, hsv⟩ := ih _ _ (Nat.le_of_lt_succ (Nat.lt_of_lt_of_le
          (length_filter_ne_lt (List.get_mem _ _ _)) hlen)) _ _ hok
        exact ⟨s, List.mem_of_mem_filter hs, hsv⟩
      · obtain ⟨s, hs, hsv⟩ := ih _ _ (Nat.le_of_lt_succ (Nat.lt_of_lt_of_le
          (length_filter_ne_lt (List.get_mem _ _ _)) hlen)) _ _ hok
        exact ⟨s, List.mem_of_mem_filter hs, hsv⟩

/-- Completeness: if no remaining candidate's read throws and some remaining
candidate holds a non-null value, the `next()` recursion succeeds (rejected
and null reads only move it on). -/
theorem nextSource_finds (pick : Nat → Nat) :
    ∀ (fuel : Nat) (env : String → RemoteRead) (sources : List String),
      sources.length ≤ fuel →
      (∀ s ∈ sources, ∀ e, env s ≠ .throws e) →
      (∃ s ∈ sources, ∃ v, env s = .resolves (some v)) →
      ∀ k, ∃ w, nextSource env pick k sources = .ok w := by
  intro fuel
  induction fuel with
  | zero =>
    intro env sources hlen _ hex k
    obtain ⟨s, hs, _⟩ := hex
    have h0 : sources.length = 0 := Nat.le_zero.mp hlen
    rw [List.length_eq_zero] at h0
    subst h0
    cases hs
  | succ f ih =>
    intro env sources hlen hnothrow hex k
    rw [nextSource]
    split
    · rename_i hz
      obtain ⟨s, hs, _⟩ := hex
      rw [List.length_eq_zero] at hz
      subst hz
      cases hs
    · split
      · rename_i e heq
        exact absurd heq (hnothrow _ (List.get_mem sources _ _) e)
      · rename_i w heq
        exact ⟨w, rfl⟩
      · rename_i heq
        apply ih
        · exact Nat.le_of_lt_succ (Nat.lt_of_lt_of_le
            (length_filter_ne_lt (List.get_mem _ _ _)) hlen)
        · intro s hs
          exact hnothrow s (List.mem_of_mem_filter hs)
        · obtain ⟨s, hs, v, hsv⟩ := hex
          refine ⟨s, List.mem_filter.mpr ⟨hs, bne_iff_ne.mpr ?_⟩, v, hsv⟩
          intro hcontra
          rw [hcontra, heq] at hsv
          simp at hsv
      · rename_i heq
        apply ih
        · exact Nat.le_of_lt_succ (Nat.lt_of_lt_of_le
            (length_filter_ne_lt (List.get_mem _ _ _)) hlen)
        · intro s hs
          exact hnothrow s (List.mem_of_mem_filter hs)
        · obtain ⟨s, hs, v, hsv⟩ := hex
          refine ⟨s, List.mem_filter.mpr ⟨hs, bne_iff_ne.mpr ?_⟩, v, hsv⟩
          intro hcontra
          rw [hcontra, heq] at hsv
          cases hsv

/-- Error classification: the lookup rejects either with `Not found` on
exhaustion, or with the exact error thrown synchronously by some remaining
candidate's `routeRequest`. -/
theorem nextSource_error (pick : Nat → Nat) :
    ∀ (fuel : Nat) (env : String → RemoteRead) (sources : List String),
      sources.length ≤ fuel →
      ∀ k e, nextSource env pick k sources = .error e →
        (∃ s ∈ sources, env s = .throws e) ∨ e = "Not found" := by
  intro fuel
  induction fuel with
  | zero =>
    intro env sources hlen k e herr
    have h0 : sources.length = 0 := Nat.le_zero.mp hlen
    rw [nextSource] at herr
    rw [dif_pos h0] at herr
    cases herr
    exact Or.inr rfl
  | succ f ih =>
    intro env sources hlen k e herr
    rw [nextSource] at herr
    split at herr
    · cases herr
      exact Or.inr rfl
    · split at herr
      · rename_i heq
        cases herr
        exact Or.inl ⟨_, List.get_mem sources _ _, heq⟩
      · cases herr
      · rcases ih _ _ (Nat.le_of_lt_succ (Nat.lt_of_lt_of_le
          (length_filter_ne_lt (List.get_mem _ _ _)) hlen)) _ _ herr with
          ⟨s, hs, hsv⟩ | hnf
        · exact Or.inl ⟨s, List.mem_of_mem_filter hs, hsv⟩
        · exact Or.inr hnf
      · rcases ih _ _ (Nat.le_of_lt_succ (Nat.lt_of_lt_of_le
          (length_filter_ne_lt (List.get_mem _ _ _)) hlen)) _ _ herr with
          ⟨s, hs, hsv⟩ | hnf
        · exact Or.inl ⟨s, List.mem_of_mem_filter hs, hsv⟩
        · exact Or.inr hnf

/-- Counterexample to C6 as stated: the claim says a failed remote read is
swallowed and only exhaustion rejects, with `Not found` — but `routeRequest`
throws its `No route` error synchronously, before the `.then(value => ...,
next)` handlers are attached, so it escapes `next()` and aborts the lookup.
At nest A (neighbors `[B]`, table entries for A, Z and B, but no route to
Z), looking up key `x`: candidate Z is picked first, `routeRequest` throws
`No route to Z`, and the lookup rejects with that error even though the
remaining candidate B resolves the value `42`. -/
theorem findInStorage_counterexample :
    routeRequest ⟨"A", ["B"], [], [("A", ["B"]), ("Z", ["B"]), ("B", ["A"])],
        fun _ => none⟩ "Z" "storage" (Content.str "x") = .noRoute "Z"
    ∧ findInStorage ⟨"A", ["B"], [], [("A", ["B"]), ("Z", ["B"]), ("B", ["A"])],
        fun _ => none⟩ "x"
        (fun s => if s = "B" then .ok (some "42") else .ok none) (fun _ => 0) =
      .error "No route to Z"
    ∧ "B" ∈ (network ⟨"A", ["B"], [], [("A", ["B"]), ("Z", ["B"]), ("B", ["A"])],
        fun _ => none⟩).filter (fun n => n != "A")
    ∧ (fun s => if s = "B" then (Except.ok (some "42") : Except Unit (Option String))
        else .ok none) "B" = .ok (some "42")
    ∧ (Except.error "No route to Z" : Except String String) ≠ .error "Not found" := by
  refine ⟨rfl, ?_, by decide, rfl, ?_⟩
  · show nextSource
      (remoteRead ⟨"A", ["B"], [], [("A", ["B"]), ("Z", ["B"]), ("B", ["A"])],
        fun _ => none⟩ "x" (fun s => if s = "B" then .ok (some "42") else .ok none))
      (fun _ => 0) 0 ["Z", "B"] = .error "No route to Z"
    rw [nextSource]
    rfl
  · intro h
    injection h with h2
    exact absurd h2 (by decide)

/-- C6 amended: `findInStorage` returns a non-null local value directly; on
a local miss it searches exactly the known node names minus itself, in the
oracle-chosen random order, removing each picked candidate.  A remote read
whose request promise rejects, or resolves null, is swallowed and the next
candidate is tried; only when all candidates are exhausted that way does the
outcome fail with the `Not found` error.  But when `routeRequest` throws its
synchronous `No route` error for the picked candidate, the throw escapes
`next()` before the `.then` handlers attach and the whole lookup aborts with
that error, without trying the remaining candidates: any rejection other
than `Not found` is such a propagated throw. -/
theorem findInStorage_spec (nest : Nest) (key : String)
    (transport : String → Except Unit (Option String)) (pick : Nat → Nat) :
    (∀ v, nest.storage key = some v →
      findInStorage nest key transport pick = .ok v)
    ∧ (nest.storage key = none →
        findInStorage nest key transport pick =
          nextSource (remoteRead nest key transport) pick 0
            ((network nest).filter (fun n => n != nest.name)))
    ∧ nest.name ∉ (network nest).filter (fun n => n != nest.name)
    ∧ (∀ (env : String → RemoteRead) (sources : List String) (k : Nat),
        (∀ s ∈ sources, env s = .rejects ∨ env s = .resolves none) →
        nextSource env pick k sources = .error "Not found")
    ∧ (∀ (env : String → RemoteRead) (sources : List String) (k : Nat) (v : String),
        nextSource env pick k sources = .ok v →
        ∃ s ∈ sources, env s = .resolves (some v))
    ∧ (∀ (env : String → RemoteRead) (sources : List String) (k : Nat),
        (∀ s ∈ sources, ∀ e, env s ≠ .throws e) →
        (∃ s ∈ sources, ∃ v, env s = .resolves (some v)) →
        ∃ w, nextSource env pick k sources = .ok w)
    ∧ (∀ (env : String → RemoteRead) (sources : List String) (k : Nat) (e : String),
        nextSource env pick k sources = .error e →
        (∃ s ∈ sources, env s = .throws e) ∨ e = "Not found") := by
  refine ⟨?_, ?_, ?_, ?_, ?_, ?_, ?_⟩
  · intro v hv
    simp [findInStorage, hv]
  · intro hv
    simp [findInStorage, hv, findInRemoteStorage]
  · intro hmem
    have := (List.mem_filter.mp hmem).2
    simp at this
  · intro env sources k henv
    exact nextSource_exhausted pick sources.length env sources le_rfl henv k
  · intro env sources k v hok
    exact nextSource_ok_source pick sources.length env sources le_rfl k v hok
  · intro env sources k hnothrow hex
    exact nextSource_finds pick sources.length env sources le_rfl hnothrow hex k
  · intro env sources k e herr
    exact nextSource_error pick sources.length env sources le_rfl k e herr

/-- Witness for C6's amended statement over a two-node table: a local hit, a
local miss reduced to the remote search over the other node, exhaustion on
swallowed reads, a successful remote read, and the error classification. -/
theorem findInStorage_spec_witness :
    findInStorage ⟨"A", ["B"], [], [("A", ["B"]), ("B", ["A"])],
        fun kk => if kk = "x" then some "42" else none⟩ "x"
        (fun _ => .ok none) (fun _ => 0) = .ok "42"
    ∧ findInStorage ⟨"A", ["B"], [], [("A", ["B"]), ("B", ["A"])],
        fun kk => if kk = "x" then some "42" else none⟩ "y"
        (fun _ => .ok none) (fun _ => 0) =
        nextSource (remoteRead ⟨"A", ["B"], [], [("A", ["B"]), ("B", ["A"])],
          fun kk => if kk = "x" then some "42" else none⟩ "y" (fun _ => .ok none))
          (fun _ => 0) 0 ["B"]
    ∧ nextSource (fun _ => RemoteRead.rejects) (fun _ => 0) 0 ["B"] =
        .error "Not found"
    ∧ (∃ s ∈ ["B"],
        (fun _ => RemoteRead.resolves (some "42")) s = RemoteRead.resolves (some "42"))
    ∧ (∃ w, nextSource (fun _ => RemoteRead.resolves (some "42")) (fun _ => 0) 0 ["B"] =
        .ok w)
    ∧ ((∃ s ∈ ["B"], (fun _ => RemoteRead.rejects) s = RemoteRead.throws "Not found")
        ∨ "Not found" = "Not found") := by
  refine ⟨?_, ?_, ?_, ?_, ?_, ?_⟩
  · exact (findInStorage_spec _ "x" (fun _ => .ok none) (fun _ => 0)).1 "42" rfl
  · have h := (findInStorage_spec ⟨"A", ["B"], [], [("A", ["B"]), ("B", ["A"])],
        fun kk => if kk = "x" then some "42" else none⟩ "y"
        (fun _ => .ok none) (fun _ => 0)).2.1 rfl
    rw [h]
    rfl
  · exact (findInStorage_spec (⟨"A", ["B"], [], [], fun _ => none⟩ : Nest) "y"
      (fun _ => .ok none) (fun _ => 0)).2.2.2.1 (fun _ => RemoteRead.rejects)
      ["B"] 0 (fun s _ => Or.inl rfl)
  · have h := (findInStorage_spec (⟨"A", ["B"], [], [], fun _ => none⟩ : Nest) "y"
      (fun _ => .ok none) (fun _ => 0)).2.2.2.2.1
      (fun _ => RemoteRead.resolves (some "42")) ["B"] 0 "42"
    refine h ?_
    rw [nextSource]
    rfl
  · exact (findInStorage_spec (⟨"A", ["B"], [], [], fun _ => none⟩ : Nest) "y"
      (fun _ => .ok none) (fun _ => 0)).2.2.2.2.2.1
      (fun _ => RemoteRead.resolves (some "42")) ["B"] 0
      (fun s _ e h => by cases h) ⟨"B", by simp, "42", rfl⟩
  · exact (findInStorage_spec (⟨"A", ["B"], [], [], fun _ => none⟩ : Nest) "y"
      (fun _ => .ok none) (fun _ => 0)).2.2.2.2.2.2
      (fun _ => RemoteRead.rejects) ["B"] 0 "Not found"
      ((findInStorage_spec (⟨"A", ["B"], [], [], fun _ => none⟩ : Nest) "y"
        (fun _ => .ok none) (fun _ => 0)).2.2.2.1
        (fun _ => RemoteRead.rejects) ["B"] 0 (fun s _ => Or.inl rfl))


/-! ## C9: Promise_all -/

/-- Invariant of the `Promise_all` executor state while only resolutions
have been delivered: `done` is the set of input promises whose `.then`
callback has already run. -/
def PAInv (ps : List (Except ε α)) (done : Finset (Fin ps.length))
    (st : PAState ε α) : Prop :=
  st.results.length = ps.length
  ∧ (∀ i : Fin ps.length,
      st.results[i.val]? = some (if i ∈ done then (ps.get i).toOption else none))
  ∧ st.remaining = ps.length - done.card
  ∧ st.outcome =
      (if done.card = ps.length ∧ 0 < ps.length then some (.ok st.results) else none)

/-- Unfolding of `paStep` at a resolving input. -/
theorem paStep_ok_eq (ps : List (Except ε α)) (st : PAState ε α)
    (i : Fin ps.length) (v : α) (hi : ps.get i = .ok v) :
    paStep ps st i =
      if st.remaining - 1 = 0 then
        trySettle { st with results := st.results.set i.val (some v),
                            remaining := st.remaining - 1 }
          (.ok (st.results.set i.val (some v)))
      else
        { st with results := st.results.set i.val (some v),
                  remaining := st.remaining - 1 } := by
  unfold paStep
  rw [hi]

/-- Unfolding of `paStep` at a rejecting input. -/
theorem paStep_error_eq (ps : List (Except ε α)) (st : PAState ε α)
    (j : Fin ps.length) (e : ε) (hj : ps.get j = .error e) :
    paStep ps st j = trySettle st (.error e) := by
  unfold paStep
  rw [hj]

/-- Delivering one more resolution preserves the invariant. -/
theorem paStep_inv (ps : List (Except ε α)) (done : Finset (Fin ps.length))
    (st : PAState ε α) (i : Fin ps.length) (v : α)
    (hi : ps.get i = .ok v) (hfresh : i ∉ done) (hinv : PAInv ps done st) :
    PAInv ps (insert i done) (paStep ps st i) := by
  obtain ⟨hlen, hres, hrem, hout⟩ := hinv
  have hcardlt : done.card < ps.length := by
    rcases Nat.lt_or_ge done.card ps.length with h | h
    · exact h
    · exfalso
      have hle : done.card ≤ Fintype.card (Fin ps.length) := Finset.card_le_univ done
      rw [Fintype.card_fin] at hle
      have hcard : done.card = Fintype.card (Fin ps.length) := by
        rw [Fintype.card_fin]; omega
      exact hfresh ((Finset.card_eq_iff_eq_univ done).mp hcard ▸ Finset.mem_univ i)
  have hcardins : (insert i done).card = done.card + 1 :=
    Finset.card_insert_of_not_mem hfresh
  have houtnone : st.outcome = none := by
    rw [hout, if_neg (by omega)]
  have hresults : ∀ j : Fin ps.length,
      (st.results.set i.val (some v))[j.val]? =
        some (if j ∈ insert i done then (ps.get j).toOption else none) := by
    intro j
    by_cases hji : j = i
    · subst hji
      rw [List.getElem?_set]
      rw [if_pos rfl, if_pos (by rw [hlen]; exact j.isLt), hi,
        if_pos (Finset.mem_insert_self j done)]
      rfl
    · have hij : i.val ≠ j.val := fun hc => hji (Fin.ext hc.symm)
      rw [List.getElem?_set, if_neg hij, hres j]
      by_cases hjd : j ∈ done
      · simp [hjd, Finset.mem_insert]
      · simp [hjd, hji, Finset.mem_insert]
  by_cases hz : st.remaining - 1 = 0
  · have hcard1 : done.card + 1 = ps.length := by omega
    have hstep : paStep ps st i =
        { results := st.results.set i.val (some v), remaining := st.remaining - 1,
          outcome := some (.ok (st.results.set i.val (some v))) } := by
      rw [paStep_ok_eq ps st i v hi, if_pos hz]
      simp [trySettle, houtnone]
    rw [hstep]
    refine ⟨by simpa using hlen, hresults, ?_, ?_⟩
    · show st.remaining - 1 = ps.length - (insert i done).card
      rw [hrem, hcardins]
      omega
    · show some (Except.ok (st.results.set i.val (some v))) =
        if (insert i done).card = ps.length ∧ 0 < ps.length then _ else none
      rw [if_pos ⟨by omega, by omega⟩]
  · have hstep : paStep ps st i =
        { results := st.results.set i.val (some v), remaining := st.remaining - 1,
          outcome := st.outcome } := by
      rw [paStep_ok_eq ps st i v hi, if_neg hz]
    rw [hstep]
    refine ⟨by simpa using hlen, hresults, ?_, ?_⟩
    · show st.remaining - 1 = ps.length - (insert i done).card
      rw [hrem, hcardins]
      omega
    · show st.outcome =
        if (insert i done).card = ps.length ∧ 0 < ps.length then _ else none
      have hcard2 : ¬ ((insert i done).card = ps.length ∧ 0 < ps.length) := by
        rw [hcardins]
        omega
      rw [houtnone, if_neg hcard2]

/-- Folding a run of fresh, pairwise-distinct resolutions preserves the
invariant, accumulating the processed set. -/
theorem paRun_inv (ps : List (Except ε α)) :
    ∀ (evs : List (Fin ps.length)) (done : Finset (Fin ps.length)) (st : PAState ε α),
      evs.Nodup → (∀ i ∈ evs, i ∉ done) → (∀ i ∈ evs, ∃ v, ps.get i = .ok v) →
      PAInv ps done st →
      PAInv ps (done ∪ evs.toFinset) (evs.foldl (paStep ps) st) := by
  intro evs
  induction evs with
  | nil =>
    intro done st _ _ _ hinv
    simpa using hinv
  | cons i t ih =>
    intro done st hnodup hfresh hok hinv
    obtain ⟨v, hv⟩ := hok i (List.mem_cons_self _ _)
    have hstep := paStep_inv ps done st i v hv (hfresh i (List.mem_cons_self _ _)) hinv
    have hnd := List.nodup_cons.mp hnodup
    have hres := ih (insert i done) (paStep ps st i) hnd.2
      (fun j hj => by
        simp only [Finset.mem_insert, not_or]
        exact ⟨fun hc => hnd.1 (hc ▸ hj), hfresh j (List.mem_cons_of_mem _ hj)⟩)
      (fun j hj => hok j (List.mem_cons_of_mem _ hj)) hstep
    have hset : insert i done ∪ t.toFinset = done ∪ (i :: t).toFinset := by
      ext j
      simp only [Finset.mem_union, Finset.mem_insert, List.mem_toFinset,
        List.mem_cons]
      tauto
    rw [List.foldl_cons]
    rw [← hset]
    exact hres

/-- One event never overwrites an already-settled outcome. -/
theorem paStep_keeps_settled (ps : List (Except ε α)) (st : PAState ε α)
    (i : Fin ps.length) (o : Except ε (List (Option α)))
    (h : st.outcome = some o) : (paStep ps st i).outcome = some o := by
  cases hg : ps.get i with
  | ok v =>
    rw [paStep_ok_eq ps st i v hg]
    by_cases hz : st.remaining - 1 = 0
    · rw [if_pos hz]
      simp [trySettle, h]
    · rw [if_neg hz]
      exact h
  | error e =>
    rw [paStep_error_eq ps st i e hg]
    simp [trySettle, h]

/-- A rejection delivered to an unsettled promise rejects it with that
reason. -/
theorem paStep_reject (ps : List (Except ε α)) (st : PAState ε α)
    (j : Fin ps.length) (e : ε) (hj : ps.get j = .error e)
    (hnone : st.outcome = none) :
    (paStep ps st j).outcome = some (.error e) := by
  rw [paStep_error_eq ps st j e hj]
  simp [trySettle, hnone]

/-- A settled promise stays settled with the same outcome: no later event
can overwrite the first `resolve`/`reject`. -/
theorem paRun_outcome_some (ps : List (Except ε α)) :
    ∀ (evs : List (Fin ps.length)) (st : PAState ε α)
      (o : Except ε (List (Option α))),
      st.outcome = some o → (evs.foldl (paStep ps) st).outcome = some o := by
  intro evs
  induction evs with
  | nil => intro st o h; simpa using h
  | cons i t ih =>
    intro st o h
    rw [List.foldl_cons]
    exact ih _ o (paStep_keeps_settled ps st i o h)

/-- The invariant holds right after the executor body ran, before any
promise settles (nonempty input). -/
theorem paInit_inv (ps : List (Except ε α)) (hpos : 0 < ps.length) :
    PAInv ps ∅ (paInit ps) := by
  unfold paInit PAInv
  rw [if_neg (by omega)]
  refine ⟨by simp, ?_, by simp, ?_⟩
  · intro i
    simp [List.getElem?_replicate, i.isLt]
  · simp only [Finset.card_empty]
    rw [if_neg (by omega)]

/-- C9: `Promise_all` resolves immediately with `[]` on an empty input
array; when every input resolves it resolves, after all have settled in any
order, with the array of their values at the same indices; and when some
input rejects, it rejects with the reason of the first rejection in settle
order. -/
theorem Promise_all_spec (ε α : Type) :
    (∀ (ps : List (Except ε α)) (order : List (Fin ps.length)),
      ps = [] → Promise_all ps order = some (.ok []))
    ∧ (∀ (ps : List (Except ε α)) (vals : Fin ps.length → α)
        (order : List (Fin ps.length)),
        (∀ i, ps.get i = .ok (vals i)) → order.Nodup → (∀ i, i ∈ order) →
        ∃ rs, Promise_all ps order = some (.ok rs) ∧ rs.length = ps.length
          ∧ ∀ i : Fin ps.length, rs[i.val]? = some (some (vals i)))
    ∧ (∀ (ps : List (Except ε α)) (o1 : List (Fin ps.length))
        (j : Fin ps.length) (o2 : List (Fin ps.length)) (e : ε),
        (o1 ++ j :: o2).Nodup → (∀ i ∈ o1, ∃ v, ps.get i = .ok v) →
        ps.get j = .error e →
        Promise_all ps (o1 ++ j :: o2) = some (.error e)) := by
  refine ⟨?_, ?_, ?_⟩
  · intro ps order hps
    subst hps
    cases order with
    | nil => rfl
    | cons i t => exact i.elim0
  · intro ps vals order hvals hnodup hcover
    by_cases hpos : 0 < ps.length
    · have hrun := paRun_inv ps order ∅ (paInit ps) hnodup
        (fun i _ => Finset.not_mem_empty i)
        (fun i _ => ⟨vals i, hvals i⟩) (paInit_inv ps hpos)
      have huniv : (∅ ∪ order.toFinset : Finset (Fin ps.length)) = Finset.univ := by
        apply Finset.eq_univ_of_forall
        intro i
        simp [List.mem_toFinset, hcover i]
      rw [huniv] at hrun
      obtain ⟨hlen, hres, _, hout⟩ := hrun
      have hcard : (Finset.univ : Finset (Fin ps.length)).card = ps.length := by
        simp
      refine ⟨(order.foldl (paStep ps) (paInit ps)).results, ?_, hlen, ?_⟩
      · show (order.foldl (paStep ps) (paInit ps)).outcome = _
        rw [hout, if_pos ⟨hcard, hpos⟩]
      · intro i
        rw [hres i, if_pos (Finset.mem_univ i), hvals i]
        rfl
    · have hps : ps = [] := List.length_eq_zero.mp (by omega)
      subst hps
      cases order with
      | nil => exact ⟨[], rfl, rfl, fun i => i.elim0⟩
      | cons i t => exact i.elim0
  · intro ps o1 j o2 e hnodup hok hj
    have hpos : 0 < ps.length := j.pos
    have hnd := List.nodup_append.mp hnodup
    have hjno1 : j ∉ o1 := fun hc => hnd.2.2 hc (List.mem_cons_self _ _)
    have hrun := paRun_inv ps o1 ∅ (paInit ps) hnd.1
      (fun i _ => Finset.not_mem_empty i) hok (paInit_inv ps hpos)
    obtain ⟨hlen, hres, hrem, hout⟩ := hrun
    have hcardlt : (∅ ∪ o1.toFinset : Finset (Fin ps.length)).card < ps.length := by
      have hle : (∅ ∪ o1.toFinset : Finset (Fin ps.length)).card ≤
          Fintype.card (Fin ps.length) := Finset.card_le_univ _
      rw [Fintype.card_fin] at hle
      rcases Nat.lt_or_ge (∅ ∪ o1.toFinset : Finset (Fin ps.length)).card ps.length with h | h
      · exact h
      · exfalso
        have hcard : (∅ ∪ o1.toFinset : Finset (Fin ps.length)).card =
            Fintype.card (Fin ps.length) := by
          rw [Fintype.card_fin]; omega
        have huniv := (Finset.card_eq_iff_eq_univ _).mp hcard
        have : j ∈ (∅ ∪ o1.toFinset : Finset (Fin ps.length)) := by
          rw [huniv]; exact Finset.mem_univ j
        simp [List.mem_toFinset] at this
        exact hjno1 this
    have hstout : (o1.foldl (paStep ps) (paInit ps)).outcome = none := by
      rw [hout, if_neg (by omega)]
    show ((o1 ++ j :: o2).foldl (paStep ps) (paInit ps)).outcome = some (.error e)
    rw [List.foldl_append, List.foldl_cons]
    exact paRun_outcome_some ps o2 _ _ (paStep_reject ps _ j e hj hstout)

/-- Witness for C9: the empty input, two resolving inputs settling in
order, and a rejection settling before a resolution. -/
theorem Promise_all_spec_witness :
    Promise_all ([] : List (Except String Nat)) [] = some (.ok [])
    ∧ (∃ rs, Promise_all ([Except.ok 1, Except.ok 2] : List (Except String Nat))
        [(0 : Fin 2), (1 : Fin 2)] = some (.ok rs) ∧ rs.length = 2
        ∧ ∀ i : Fin 2, rs[i.val]? =
            some (some (if i.val = 0 then 1 else 2)))
    ∧ Promise_all [Except.error "e", Except.ok (1 : Nat)]
        (([⟨1, by decide⟩] : List (Fin 2)) ++ ⟨0, by decide⟩ :: []) =
        some (.error "e") := by
  refine ⟨?_, ?_, ?_⟩
  · exact (Promise_all_spec String Nat).1 [] [] rfl
  · exact (Promise_all_spec String Nat).2.1 [Except.ok 1, Except.ok 2]
      (fun i => if i.val = 0 then 1 else 2) ([0, 1] : List (Fin 2))
      (fun i => by fin_cases i <;> rfl) (by decide) (by decide)
  · exact (Promise_all_spec String Nat).2.2 [Except.error "e", Except.ok 1]
      ([⟨1, by decide⟩] : List (Fin 2)) ⟨0, by decide⟩ [] "e" (by decide)
      (fun i hi => ⟨1, by rw [List.mem_singleton.mp hi]; rfl⟩) rfl

/-! ## C2 and C3: the Router

Supporting graph lemmas first, then an invariant proof over the BFS
worklist loop of `findRoute`. -/

/-- A zero-length walk stays put. -/
theorem walk_zero {c : ConnMap} {a b : String} (h : Walk c a b 0) : a = b := by
  cases h
  rfl

/-- A walk extends by one edge at its end. -/
theorem walk_snoc {c : ConnMap} {a b x : String} {n : Nat}
    (h : Walk c a b n) (hx : x ∈ getConn c b) : Walk c a x (n + 1) := by
  induction h with
  | refl a => exact Walk.step hx (Walk.refl x)
  | step hab _ ih => exact Walk.step hab (ih hx)

/-- A positive-length walk decomposes at its last edge. -/
theorem walk_last {c : ConnMap} {x : String} :
    ∀ {n : Nat} {a : String}, Walk c a x (n + 1) →
      ∃ b, Walk c a b n ∧ x ∈ getConn c b := by
  intro n
  induction n with
  | zero =>
    intro a h
    cases h with
    | step hab hbc =>
      have hb := walk_zero hbc
      exact ⟨a, Walk.refl a, hb ▸ hab⟩
  | succ m ih =>
    intro a h
    cases h with
    | step hab hbc =>
      obtain ⟨y, hy, hxy⟩ := ih hbc
      exact ⟨y, Walk.step hab hy, hxy⟩

/-- Any walk gives a shortest walk. -/
theorem exists_minWalk {c : ConnMap} {a b : String} :
    ∀ {n : Nat}, Walk c a b n → ∃ m, MinWalk c a b m := by
  intro n
  induction n using Nat.strong_induction_on with
  | _ n ih =>
    intro hw
    by_cases h : ∃ m, m < n ∧ Walk c a b m
    · obtain ⟨m, hm, hwm⟩ := h
      exact ih m hm hwm
    · refine ⟨n, hw, fun m hwm => ?_⟩
      by_contra hc
      exact h ⟨m, by omega, hwm⟩

/-- Shortest-walk length is unique. -/
theorem minWalk_unique {c : ConnMap} {a b : String} {n m : Nat}
    (hn : MinWalk c a b n) (hm : MinWalk c a b m) : n = m :=
  Nat.le_antisymm (hn.2 m hm.1) (hm.2 n hn.1)

/-- The empty walk is the shortest walk from a node to itself. -/
theorem minWalk_self (c : ConnMap) (a : String) : MinWalk c a a 0 :=
  ⟨Walk.refl a, fun m _ => Nat.zero_le m⟩

/-- First half of the `scanNbrs` characterization: a `found` return hands
back the current item's `via` unchanged, and only fires when the target is
among the scanned neighbors. -/
theorem scanNbrs_found (toNode : String) :
    ∀ (ns : List String) (via : Option String) (work : List WItem)
      (v : Option String),
      scanNbrs toNode via ns work = .found v → v = via ∧ toNode ∈ ns := by
  intro ns
  induction ns with
  | nil =>
    intro via work v hscan
    cases hscan
  | cons next rest ih =>
    intro via work v hscan
    rw [scanNbrs] at hscan
    by_cases h1 : (next == toNode) = true
    · rw [if_pos h1] at hscan
      cases hscan
      exact ⟨rfl, by rw [beq_iff_eq.mp h1]; exact List.mem_cons_self _ _⟩
    · rw [if_neg h1] at hscan
      by_cases h2 : work.any (fun w => w.atNode == next) = true
      · rw [if_pos h2] at hscan
        obtain ⟨hv, hm⟩ := ih via work v hscan
        exact ⟨hv, List.mem_cons_of_mem _ hm⟩
      · rw [if_neg h2] at hscan
        obtain ⟨hv, hm⟩ := ih via _ v hscan
        exact ⟨hv, List.mem_cons_of_mem _ hm⟩

/-- Second half: a `cont` return means the target was not among the scanned
neighbors; the work list only grew, each new entry is one of the scanned
neighbors with first hop `via || next` and was not in the work list before,
every scanned neighbor now has a work-list entry, and no duplicate node
names are introduced. -/
theorem scanNbrs_cont (toNode : String) :
    ∀ (ns : List String) (via : Option String) (work work' : List WItem),
      scanNbrs toNode via ns work = .cont work' →
      toNode ∉ ns
      ∧ (∃ news, work' = work ++ news
          ∧ ∀ w ∈ news, w.atNode ∈ ns ∧ w.via = some (jsOrVia via w.atNode)
              ∧ w.atNode ∉ work.map WItem.atNode)
      ∧ (∀ x ∈ ns, x ∈ work'.map WItem.atNode)
      ∧ ((work.map WItem.atNode).Nodup → (work'.map WItem.atNode).Nodup) := by
  intro ns
  induction ns with
  | nil =>
    intro via work work' hscan
    cases hscan
    exact ⟨by simp, ⟨[], by simp, by simp⟩, by simp, fun h => h⟩
  | cons next rest ih =>
    intro via work work' hscan
    rw [scanNbrs] at hscan
    by_cases h1 : (next == toNode) = true
    · rw [if_pos h1] at hscan
      cases hscan
    · rw [if_neg h1] at hscan
      have hnextto : next ≠ toNode := fun hc => h1 (beq_iff_eq.mpr hc)
      by_cases h2 : work.any (fun w => w.atNode == next) = true
      · rw [if_pos h2] at hscan
        obtain ⟨hto, ⟨news, heq, hnews⟩, hmem, hnd⟩ := ih via work work' hscan
        refine ⟨?_, ⟨news, heq, fun w hw => ?_⟩, ?_, hnd⟩
        · simp only [List.mem_cons, not_or]
          exact ⟨fun hc => hnextto hc.symm, hto⟩
        · obtain ⟨hw1, hw2, hw3⟩ := hnews w hw
          exact ⟨List.mem_cons_of_mem _ hw1, hw2, hw3⟩
        · intro x hx
          rcases List.mem_cons.mp hx with rfl | hx'
          · obtain ⟨w, hw, hwx⟩ := List.any_eq_true.mp h2
            rw [heq]
            exact List.mem_map.mpr ⟨w, List.mem_append_left _ hw, beq_iff_eq.mp hwx⟩
          · exact hmem x hx'
      · rw [if_neg h2] at hscan
        have hfresh : next ∉ work.map WItem.atNode := by
          intro hc
          obtain ⟨w, hw, hwn⟩ := List.mem_map.mp hc
          exact h2 (List.any_eq_true.mpr ⟨w, hw, beq_iff_eq.mpr hwn⟩)
        obtain ⟨hto, ⟨news2, heq, hnews⟩, hmem, hnd⟩ :=
          ih via (work ++ [⟨next, some (jsOrVia via next)⟩]) work' hscan
        refine ⟨?_, ⟨⟨next, some (jsOrVia via next)⟩ :: news2, ?_, ?_⟩, ?_, ?_⟩
        · simp only [List.mem_cons, not_or]
          exact ⟨fun hc => hnextto hc.symm, hto⟩
        · rw [heq, List.append_assoc]
          rfl
        · intro w hw
          rcases List.mem_cons.mp hw with rfl | hw'
          · exact ⟨List.mem_cons_self _ _, rfl, hfresh⟩
          · obtain ⟨hwns, hwvia, hwfresh⟩ := hnews w hw'
            refine ⟨List.mem_cons_of_mem _ hwns, hwvia, ?_⟩
            intro hc
            exact hwfresh (by
              rw [List.map_append]
              exact List.mem_append_left _ hc)
        · intro x hx
          rcases List.mem_cons.mp hx with rfl | hx'
          · rw [heq, List.map_append]
            refine List.mem_append_left _ ?_
            rw [List.map_append]
            refine List.mem_append_right _ ?_
            exact List.mem_singleton.mpr rfl
          · exact hmem x hx'
        · intro hwnd
          refine hnd ?_
          rw [List.map_append]
          rw [List.nodup_append]
          refine ⟨hwnd, List.nodup_singleton _, ?_⟩
          intro x hx hx2
          simp only [List.map_cons, List.map_nil, List.mem_singleton] at hx2
          subst hx2
          exact hfresh hx

/-- Every entry of a neighbor list stored in `connections` occurs in the
flattened list of all neighbor lists. -/
theorem getConn_subset_flatten {conn : ConnMap} {a x : String}
    (hx : x ∈ getConn conn a) : x ∈ (conn.map Prod.snd).flatten := by
  unfold getConn mapGet at hx
  cases hf : conn.find? (fun p => p.1 == a) with
  | none => rw [hf] at hx; cases hx
  | some p =>
    rw [hf] at hx
    refine List.mem_flatten.mpr ⟨p.2, ?_, hx⟩
    exact List.mem_map.mpr ⟨p, List.mem_of_find?_eq_some hf, rfl⟩

/-- A bound on the worklist length: distinct node names drawn from the
origin plus the flattened neighbor lists. -/
theorem rinv_length_bound {conn : ConnMap} {fromNode : String}
    {work : List WItem}
    (hnodup : (work.map WItem.atNode).Nodup)
    (hsub : ∀ w ∈ work, w.atNode = fromNode ∨
      w.atNode ∈ (conn.map Prod.snd).flatten) :
    work.length ≤ (conn.map Prod.snd).flatten.length + 1 := by
  have h1 : (work.map WItem.atNode).toFinset.card = work.length := by
    rw [List.toFinset_card_of_nodup hnodup, List.length_map]
  have hsubset : (work.map WItem.atNode).toFinset ⊆
      (fromNode :: (conn.map Prod.snd).flatten).toFinset := by
    intro x hx
    rw [List.mem_toFinset] at hx
    rw [List.mem_toFinset]
    obtain ⟨w, hw, rfl⟩ := List.mem_map.mp hx
    rcases hsub w hw with h | h
    · rw [h]; exact List.mem_cons_self _ _
    · exact List.mem_cons_of_mem _ h
  have h2 := Finset.card_le_card hsubset
  have h3 := List.toFinset_card_le (fromNode :: (conn.map Prod.snd).flatten)
  simp only [List.length_cons] at h3
  omega

/-- The invariant is preserved by one full scan of the current entry's
neighbor list that does not hit the target. -/
theorem rinv_step (conn : ConnMap) (fromNode toNode : String)
    (hne : fromNode ≠ toNode) (hnb : toNode ∉ getConn conn fromNode)
    (hemp : "" ∉ getConn conn fromNode)
    (work : List WItem) (i : Nat) (hinv : RInv conn fromNode toNode work i)
    (hi : i < work.length) (work' : List WItem)
    (hscan : scanNbrs toNode (work.get ⟨i, hi⟩).via
      (getConn conn (work.get ⟨i, hi⟩).atNode) work = .cont work') :
    RInv conn fromNode toNode work' (i + 1) := by
  obtain ⟨hile, hhead, hnodup, hto, hvia, hreach, hsorted, hband, hclosed,
    hcomplete, hsub⟩ := hinv
  obtain ⟨hto_ns, ⟨news, heq, hnews⟩, hmemns, hndpres⟩ :=
    scanNbrs_cont toNode _ _ work work' hscan
  obtain ⟨δ, hδ⟩ := hreach _ (List.get_mem work i hi)
  have hlen' : work.length ≤ work'.length := by
    rw [heq, List.length_append]
    omega
  have hget_left : ∀ (j : Nat) (hj : j < work.length) (hj' : j < work'.length),
      work'.get ⟨j, hj'⟩ = work.get ⟨j, hj⟩ := by
    intro j hj hj'
    cases heq
    exact List.get_append j hj
  have hget_right : ∀ (j : Nat) (hj' : j < work'.length), work.length ≤ j →
      work'.get ⟨j, hj'⟩ ∈ news := by
    intro j hj' hge
    cases heq
    rw [List.get_eq_getElem, List.getElem_append_right hge]
    exact List.getElem_mem _
  have hmem' : ∀ x, x ∈ work.map WItem.atNode → x ∈ work'.map WItem.atNode := by
    intro x hx
    rw [heq, List.map_append]
    exact List.mem_append_left _ hx
  -- every fresh entry sits at distance exactly δ+1, with a correct first hop
  have hviaNew : ∀ w ∈ news, ∃ u, w.via = some u ∧ u ∈ getConn conn fromNode
      ∧ MinWalk conn fromNode w.atNode (δ + 1) ∧ Walk conn u w.atNode δ := by
    intro w hw
    obtain ⟨hwns, hwvia, hwfresh⟩ := hnews w hw
    have hwalk : Walk conn fromNode w.atNode (δ + 1) := walk_snoc hδ.1 hwns
    obtain ⟨dx, hdx⟩ := exists_minWalk hwalk
    have hdxle : dx ≤ δ + 1 := hdx.2 _ hwalk
    have hdxgt : ¬ dx ≤ δ := fun hle => hwfresh (hcomplete hi _ dx δ hdx hδ hle)
    have hdxeq : dx = δ + 1 := by omega
    by_cases hi0 : i = 0
    · subst hi0
      obtain ⟨ys, hys⟩ := List.head?_eq_some_iff.mp hhead
      have hitm0 : work.get ⟨0, hi⟩ = ⟨fromNode, none⟩ := by
        cases hys
        rfl
      have hδ0 : δ = 0 := by
        refine minWalk_unique hδ ?_
        rw [hitm0]
        exact minWalk_self conn fromNode
      subst hδ0
      refine ⟨w.atNode, ?_, ?_, hdxeq ▸ hdx, Walk.refl _⟩
      · rw [hwvia, hitm0]
        rfl
      · rw [hitm0] at hwns
        exact hwns
    · obtain ⟨v, m, hv_eq, hv_mem, hv_min, hv_walk⟩ :=
        hvia i hi (Nat.pos_of_ne_zero hi0)
      have hδm : δ = m + 1 := minWalk_unique hδ hv_min
      have hvne : v ≠ "" := fun hc => hemp (hc ▸ hv_mem)
      refine ⟨v, ?_, hv_mem, hdxeq ▸ hdx, ?_⟩
      · rw [hwvia, hv_eq]
        simp [jsOrVia, hvne]
      · rw [hδm]
        exact walk_snoc hv_walk hwns
  have hdNew : ∀ w ∈ news, MinWalk conn fromNode w.atNode (δ + 1) := by
    intro w hw
    obtain ⟨u, _, _, h, _⟩ := hviaNew w hw
    exact h
  refine ⟨?_, ?_, ?_, ?_, ?_, ?_, ?_, ?_, ?_, ?_, ?_⟩
  · -- hile
    omega
  · -- hhead
    obtain ⟨ys, hys⟩ := List.head?_eq_some_iff.mp hhead
    rw [heq, hys]
    rfl
  · -- hnodup
    exact hndpres hnodup
  · -- hto
    intro w hw
    rw [heq] at hw
    rcases List.mem_append.mp hw with hw | hw
    · exact hto w hw
    · obtain ⟨hwns, _, _⟩ := hnews w hw
      exact fun hc => hto_ns (hc ▸ hwns)
  · -- hvia
    intro j hj' hjpos
    by_cases hjw : j < work.length
    · rw [hget_left j hjw hj']
      exact hvia j hjw hjpos
    · obtain ⟨u, hu1, hu2, hu3, hu4⟩ :=
        hviaNew _ (hget_right j hj' (by omega))
      exact ⟨u, δ, hu1, hu2, hu3, hu4⟩
  · -- hreach
    intro w hw
    rw [heq] at hw
    rcases List.mem_append.mp hw with hw | hw
    · exact hreach w hw
    · exact ⟨δ + 1, hdNew w hw⟩
  · -- hsorted
    intro j k hj' hk' hjk dj dk hdj hdk
    by_cases hjw : j < work.length
    · by_cases hkw : k < work.length
      · rw [hget_left j hjw hj'] at hdj
        rw [hget_left k hkw hk'] at hdk
        exact hsorted j k hjw hkw hjk dj dk hdj hdk
      · have hdk_eq : dk = δ + 1 := by
          have hkmem := hget_right k hk' (by omega)
          exact minWalk_unique hdk (hdNew _ hkmem)
        rw [hget_left j hjw hj'] at hdj
        have : dj ≤ δ + 1 := hband hi j hjw δ dj hδ hdj
        omega
    · have hdj_eq : dj = δ + 1 := by
        have hjmem := hget_right j hj' (by omega)
        exact minWalk_unique hdj (hdNew _ hjmem)
      have hkw : ¬ k < work.length := by omega
      have hdk_eq : dk = δ + 1 := by
        have hkmem := hget_right k hk' (by omega)
        exact minWalk_unique hdk (hdNew _ hkmem)
      omega
  · -- hband
    intro hi1 j hj' di dj hdi hdj
    have hdi_ge : δ ≤ di := by
      by_cases h : i + 1 < work.length
      · rw [hget_left (i + 1) h hi1] at hdi
        exact hsorted i (i + 1) hi h (by omega) δ di hδ hdi
      · have hmemn := hget_right (i + 1) hi1 (by omega)
        have : di = δ + 1 := minWalk_unique hdi (hdNew _ hmemn)
        omega
    have hdj_le : dj ≤ δ + 1 := by
      by_cases hjw : j < work.length
      · rw [hget_left j hjw hj'] at hdj
        exact hband hi j hjw δ dj hδ hdj
      · have hmemn := hget_right j hj' (by omega)
        have : dj = δ + 1 := minWalk_unique hdj (hdNew _ hmemn)
        omega
    omega
  · -- hclosed
    intro j hj' hji1 x hx
    have hjw : j < work.length := by omega
    rw [hget_left j hjw hj'] at hx
    rcases Nat.lt_succ_iff_lt_or_eq.mp hji1 with hlt | heqj
    · obtain ⟨hxne, hxmem⟩ := hclosed j hjw hlt x hx
      exact ⟨hxne, hmem' x hxmem⟩
    · have hfin : (⟨j, hjw⟩ : Fin work.length) = ⟨i, hi⟩ := Fin.ext heqj
      rw [hfin] at hx
      exact ⟨fun hc => hto_ns (hc ▸ hx), hmemns x hx⟩
  · -- hcomplete
    intro hi1 x n di hx hdi hn
    have hdi_ge : δ ≤ di := by
      by_cases h : i + 1 < work.length
      · rw [hget_left (i + 1) h hi1] at hdi
        exact hsorted i (i + 1) hi h (by omega) δ di hδ hdi
      · have hmemn := hget_right (i + 1) hi1 (by omega)
        have : di = δ + 1 := minWalk_unique hdi (hdNew _ hmemn)
        omega
    have hdi_le : di ≤ δ + 1 := by
      by_cases h : i + 1 < work.length
      · rw [hget_left (i + 1) h hi1] at hdi
        exact hband hi (i + 1) h δ di hδ hdi
      · have hmemn := hget_right (i + 1) hi1 (by omega)
        have : di = δ + 1 := minWalk_unique hdi (hdNew _ hmemn)
        omega
    by_cases hcase : n ≤ δ
    · exact hmem' x (hcomplete hi x n δ hx hδ hcase)
    · have hn_eq : n = δ + 1 := by omega
      have hdi_eq : di = δ + 1 := by omega
      rw [hn_eq] at hx
      obtain ⟨y, hy_walk, hy_adj⟩ := walk_last hx.1
      obtain ⟨dy, hdy⟩ := exists_minWalk hy_walk
      have hdy_le : dy ≤ δ := hdy.2 δ hy_walk
      have hy_mem : y ∈ work.map WItem.atNode := hcomplete hi y dy δ hdy hδ hdy_le
      obtain ⟨wy, hwy_mem, hwy_at⟩ := List.mem_map.mp hy_mem
      obtain ⟨⟨q, hq⟩, hget_q⟩ := List.mem_iff_get.mp hwy_mem
      have hdy_q : MinWalk conn fromNode (work.get ⟨q, hq⟩).atNode dy := by
        rw [hget_q, hwy_at]
        exact hdy
      have hq_le : q ≤ i := by
        by_contra hgt
        have hi1w : i + 1 ≤ q := by omega
        have hi1lt : i + 1 < work.length := by omega
        have hdi' : MinWalk conn fromNode (work.get ⟨i + 1, hi1lt⟩).atNode di := by
          rw [← hget_left (i + 1) hi1lt hi1]
          exact hdi
        have hle : di ≤ dy := hsorted (i + 1) q hi1lt hq hi1w di dy hdi' hdy_q
        omega
      rcases Nat.lt_or_eq_of_le hq_le with hqlt | hqeq
      · have hy_conn : x ∈ getConn conn (work.get ⟨q, hq⟩).atNode := by
          rw [hget_q, hwy_at]
          exact hy_adj
        exact hmem' x (hclosed q hq hqlt x hy_conn).2
      · have hfin : (⟨q, hq⟩ : Fin work.length) = ⟨i, hi⟩ := Fin.ext hqeq
        have hy_eq : (work.get ⟨i, hi⟩).atNode = y := by
          rw [← hfin, hget_q, hwy_at]
        have hx_ns : x ∈ getConn conn (work.get ⟨i, hi⟩).atNode := by
          rw [hy_eq]
          exact hy_adj
        exact hmemns x hx_ns
  · -- hsub
    intro w hw
    rw [heq] at hw
    rcases List.mem_append.mp hw with hw | hw
    · exact hsub w hw
    · obtain ⟨hwns, _, _⟩ := hnews w hw
      exact Or.inr (getConn_subset_flatten hwns)

/-- When the scan hits the target, the returned `via` is a neighbor of the
origin that begins a shortest walk to the target. -/
theorem rinv_found (conn : ConnMap) (fromNode toNode : String)
    (hne : fromNode ≠ toNode) (hnb : toNode ∉ getConn conn fromNode)
    (work : List WItem) (i : Nat) (hinv : RInv conn fromNode toNode work i)
    (hi : i < work.length) (v : Option String)
    (hscan : scanNbrs toNode (work.get ⟨i, hi⟩).via
      (getConn conn (work.get ⟨i, hi⟩).atNode) work = .found v) :
    ∃ u m, v = some u ∧ u ∈ getConn conn fromNode ∧ Walk conn u toNode m
      ∧ MinWalk conn fromNode toNode (m + 1) := by
  obtain ⟨hile, hhead, hnodup, hto, hvia, hreach, hsorted, hband, hclosed,
    hcomplete, hsub⟩ := hinv
  obtain ⟨hveq, hto_in⟩ := scanNbrs_found toNode _ _ work v hscan
  by_cases hi0 : i = 0
  · exfalso
    obtain ⟨ys, hys⟩ := List.head?_eq_some_iff.mp hhead
    have hitm0 : work.get ⟨i, hi⟩ = ⟨fromNode, none⟩ := by
      cases hys
      cases hi0
      rfl
    rw [hitm0] at hto_in
    exact hnb hto_in
  · obtain ⟨u, m, hv_eq, hv_mem, hv_min, hv_walk⟩ :=
      hvia i hi (Nat.pos_of_ne_zero hi0)
    have huto : Walk conn u toNode (m + 1) := walk_snoc hv_walk hto_in
    have hfromto : Walk conn fromNode toNode (m + 2) := Walk.step hv_mem huto
    refine ⟨u, m + 1, by rw [hveq, hv_eq], hv_mem, huto, hfromto, ?_⟩
    intro m' hm'
    by_contra hlt
    have hm'le : m' ≤ m + 1 := by omega
    cases hm0 : m' with
    | zero =>
      rw [hm0] at hm'
      exact hne (walk_zero hm')
    | succ k =>
      rw [hm0] at hm'
      obtain ⟨y, hy_walk, hy_adj⟩ := walk_last hm'
      obtain ⟨dy, hdy⟩ := exists_minWalk hy_walk
      have hdy_le : dy ≤ k := hdy.2 k hy_walk
      have hy_mem : y ∈ work.map WItem.atNode :=
        hcomplete hi y dy (m + 1) hdy hv_min (by omega)
      obtain ⟨wy, hwy_mem, hwy_at⟩ := List.mem_map.mp hy_mem
      obtain ⟨⟨q, hq⟩, hget_q⟩ := List.mem_iff_get.mp hwy_mem
      have hdy_q : MinWalk conn fromNode (work.get ⟨q, hq⟩).atNode dy := by
        rw [hget_q, hwy_at]
        exact hdy
      have hq_lt : q < i := by
        by_contra hge
        have hle : m + 1 ≤ dy := hsorted i q hi hq (by omega) (m + 1) dy hv_min hdy_q
        omega
      have hy_conn : toNode ∈ getConn conn (work.get ⟨q, hq⟩).atNode := by
        rw [hget_q, hwy_at]
        exact hy_adj
      exact (hclosed q hq hq_lt toNode hy_conn).1 rfl

/-- When the loop runs off the end of the work list, the target is
unreachable: the discovered set is closed under neighbor links, contains the
origin, and excludes the target. -/
theorem rinv_end (conn : ConnMap) (fromNode toNode : String)
    (work : List WItem) (i : Nat)
    (hinv : RInv conn fromNode toNode work i) (hend : ¬ i < work.length) :
    ¬ Reachable conn fromNode toNode := by
  obtain ⟨hile, hhead, hnodup, hto, hvia, hreach, hsorted, hband, hclosed,
    hcomplete, hsub⟩ := hinv
  have hall : ∀ (n : Nat) (x : String), Walk conn fromNode x n →
      x ∈ work.map WItem.atNode := by
    intro n
    induction n with
    | zero =>
      intro x hw
      obtain ⟨ys, hys⟩ := List.head?_eq_some_iff.mp hhead
      rw [← walk_zero hw, hys]
      simp
    | succ k ih =>
      intro x hw
      obtain ⟨y, hy_walk, hy_adj⟩ := walk_last hw
      have hy_mem := ih y hy_walk
      obtain ⟨wy, hwy_mem, hwy_at⟩ := List.mem_map.mp hy_mem
      obtain ⟨⟨q, hq⟩, hget_q⟩ := List.mem_iff_get.mp hwy_mem
      have hx_conn : x ∈ getConn conn (work.get ⟨q, hq⟩).atNode := by
        rw [hget_q, hwy_at]
        exact hy_adj
      exact (hclosed q hq (by omega) x hx_conn).2
  rintro ⟨n, hw⟩
  obtain ⟨w, hwmem, hwat⟩ := List.mem_map.mp (hall n toNode hw)
  exact hto w hwmem hwat

/-- The invariant holds at the initial state `work = [{at: from, via: null}]`,
`i = 0`. -/
theorem rinv_init (conn : ConnMap) (fromNode toNode : String)
    (hne : fromNode ≠ toNode) :
    RInv conn fromNode toNode [⟨fromNode, none⟩] 0 := by
  have hget0 : ∀ (h : (0 : Nat) < ([⟨fromNode, none⟩] : List WItem).length),
      (([⟨fromNode, none⟩] : List WItem).get ⟨0, h⟩) = ⟨fromNode, none⟩ :=
    fun _ => rfl
  refine ⟨by omega, rfl, by simp, ?_, ?_, ?_, ?_, ?_, ?_, ?_, ?_⟩
  · intro w hw
    rw [List.mem_singleton] at hw
    subst hw
    exact hne
  · intro j hj hjpos
    simp only [List.length_singleton] at hj
    omega
  · intro w hw
    rw [List.mem_singleton] at hw
    subst hw
    exact ⟨0, minWalk_self conn fromNode⟩
  · intro j k hj hk hjk dj dk hdj hdk
    simp only [List.length_singleton] at hj hk
    have hj0 : j = 0 := by omega
    have hk0 : k = 0 := by omega
    subst hj0
    subst hk0
    have : dj = dk := minWalk_unique hdj hdk
    omega
  · intro hcur j hj di dj hdi hdj
    simp only [List.length_singleton] at hj
    have hj0 : j = 0 := by omega
    subst hj0
    have : di = dj := minWalk_unique hdi hdj
    omega
  · intro j hj hjlt
    omega
  · intro hcur x n di hx hdi hle
    have hdi0 : di = 0 := minWalk_unique hdi (minWalk_self conn fromNode)
    have hn0 : n = 0 := by omega
    rw [hn0] at hx
    rw [← walk_zero hx.1]
    simp
  · intro w hw
    rw [List.mem_singleton] at hw
    subst hw
    exact Or.inl rfl

/-- The fuelled worklist loop never exhausts the fuel `findRoute` supplies,
and its result is sound: `none` only for unreachable targets, a hop only
when it is a neighbor of the origin beginning a shortest walk to the
target. -/
theorem findRouteAux_spec (conn : ConnMap) (fromNode toNode : String)
    (hne : fromNode ≠ toNode) (hnb : toNode ∉ getConn conn fromNode)
    (hemp : "" ∉ getConn conn fromNode) :
    ∀ (fuel : Nat) (work : List WItem) (i : Nat),
      RInv conn fromNode toNode work i →
      (conn.map Prod.snd).flatten.length + 2 - i ≤ fuel →
      ∃ r, findRouteAux conn toNode fuel work i = some r
        ∧ (r = none → ¬ Reachable conn fromNode toNode)
        ∧ (∀ v, r = some v → v ∈ getConn conn fromNode
            ∧ ∃ m, Walk conn v toNode m ∧ MinWalk conn fromNode toNode (m + 1)) := by
  intro fuel
  induction fuel with
  | zero =>
    intro work i hinv hfuel
    exfalso
    have hb := rinv_length_bound hinv.hnodup hinv.hsub
    have hl := hinv.hile
    omega
  | succ f ih =>
    intro work i hinv hfuel
    by_cases hi : i < work.length
    · cases hscan_eq : scanNbrs toNode (work.get ⟨i, hi⟩).via
        (getConn conn (work.get ⟨i, hi⟩).atNode) work with
      | found v =>
        obtain ⟨u, m, hvu, humem, huwalk, hmin⟩ :=
          rinv_found conn fromNode toNode hne hnb work i hinv hi v hscan_eq
        refine ⟨v, ?_, ?_, ?_⟩
        · rw [findRouteAux, dif_pos hi, hscan_eq]
        · intro hc
          rw [hvu] at hc
          cases hc
        · intro v' hv'
          rw [hvu] at hv'
          cases hv'
          exact ⟨humem, m, huwalk, hmin⟩
      | cont work' =>
        have hstep := rinv_step conn fromNode toNode hne hnb hemp work i hinv hi
          work' hscan_eq
        obtain ⟨r, hr, hnone, hsome⟩ := ih work' (i + 1) hstep (by omega)
        refine ⟨r, ?_, hnone, hsome⟩
        rw [findRouteAux, dif_pos hi, hscan_eq]
        exact hr
    · refine ⟨none, ?_, ?_, ?_⟩
      · rw [findRouteAux, dif_neg hi]
      · intro _
        exact rinv_end conn fromNode toNode work i hinv hi
      · intro v hv
        cases hv

/-- C2 amended: over tables in which the origin's neighbor list does not
contain the empty string, and for a target that is neither the origin itself
nor one of the origin's direct neighbors (the only case `routeRequest`
consults `findRoute` in), `findRoute` returns `none` exactly when the target
is unreachable, and otherwise returns a first hop that is a direct neighbor
of the origin (in particular nonempty) beginning a shortest walk, by hop
count, to the target; the worklist loop terminates within the supplied fuel
(the visited set keyed by node name keeps the list duplicate-free). -/
theorem findRoute_spec (conn : ConnMap) (fromNode toNode : String)
    (hne : fromNode ≠ toNode) (hnb : toNode ∉ getConn conn fromNode)
    (hemp : "" ∉ getConn conn fromNode) :
    (findRoute fromNode toNode conn = none ↔ ¬ Reachable conn fromNode toNode)
    ∧ (∀ v, findRoute fromNode toNode conn = some v →
        v ∈ getConn conn fromNode ∧ v ≠ ""
          ∧ ∃ m, Walk conn v toNode m ∧ MinWalk conn fromNode toNode (m + 1))
    ∧ findRouteAux conn toNode (routeFuel conn) [⟨fromNode, none⟩] 0 ≠ none := by
  obtain ⟨r, hr, hnone, hsome⟩ := findRouteAux_spec conn fromNode toNode hne hnb
    hemp (routeFuel conn) [⟨fromNode, none⟩] 0 (rinv_init conn fromNode toNode hne)
    (by unfold routeFuel; omega)
  have hfr : findRoute fromNode toNode conn = r := by
    rw [findRoute, hr]
    rfl
  refine ⟨⟨?_, ?_⟩, ?_, ?_⟩
  · intro h
    cases hrc : r with
    | none => exact hnone hrc
    | some v =>
      rw [hfr, hrc] at h
      cases h
  · intro h
    cases hrc : r with
    | none => rw [hfr, hrc]
    | some v =>
      exfalso
      obtain ⟨_, m, _, hmin⟩ := hsome v hrc
      exact h ⟨m + 1, hmin.1⟩
  · intro v hv
    rw [hfr] at hv
    obtain ⟨hmem, m, hwalk, hmin⟩ := hsome v hv
    exact ⟨hmem, fun hc => hemp (hc ▸ hmem), m, hwalk, hmin⟩
  · rw [hr]
    intro hc
    cases hc

/-- Witness for the amended C2 on the line A - B - C: from A, the next hop
toward C is computed, is the neighbor B, and begins the unique shortest
walk. -/
theorem findRoute_spec_witness :
    ((findRoute "A" "C" [("A", ["B"]), ("B", ["A", "C"]), ("C", ["B"])] = none ↔
        ¬ Reachable [("A", ["B"]), ("B", ["A", "C"]), ("C", ["B"])] "A" "C")
      ∧ (∀ v, findRoute "A" "C" [("A", ["B"]), ("B", ["A", "C"]), ("C", ["B"])] =
            some v →
          v ∈ getConn [("A", ["B"]), ("B", ["A", "C"]), ("C", ["B"])] "A" ∧ v ≠ ""
            ∧ ∃ m, Walk [("A", ["B"]), ("B", ["A", "C"]), ("C", ["B"])] v "C" m
              ∧ MinWalk [("A", ["B"]), ("B", ["A", "C"]), ("C", ["B"])] "A" "C" (m + 1))
      ∧ findRouteAux [("A", ["B"]), ("B", ["A", "C"]), ("C", ["B"])] "C"
          (routeFuel [("A", ["B"]), ("B", ["A", "C"]), ("C", ["B"])])
          [⟨"A", none⟩] 0 ≠ none)
    ∧ findRoute "A" "C" [("A", ["B"]), ("B", ["A", "C"]), ("C", ["B"])] = some "B" :=
  ⟨findRoute_spec [("A", ["B"]), ("B", ["A", "C"]), ("C", ["B"])] "A" "C"
    (by decide) (by decide) (by decide), by decide⟩

/-- Counterexample to C2 as stated.  Three concrete evaluations: (a) a
target that is a direct neighbor of the source is reachable, yet `findRoute`
returns `none` (the initial entry's `via` is `null`); (b) with
source = target the shortest path has zero hops, yet `findRoute` returns the
neighbor `B` instead of none; (c) with an empty-string node name, JS
falsiness in `via || next` makes `findRoute` return a hop that is not a
direct neighbor of the source. -/
theorem findRoute_counterexample :
    (findRoute "A" "B" [("A", ["B"]), ("B", ["A"])] = none
      ∧ Walk [("A", ["B"]), ("B", ["A"])] "A" "B" 1)
    ∧ (findRoute "A" "A" [("A", ["B"]), ("B", ["A"])] = some "B"
      ∧ MinWalk [("A", ["B"]), ("B", ["A"])] "A" "A" 0)
    ∧ (findRoute "A" "T" [("A", [""]), ("", ["X"]), ("X", ["T"])] = some "X"
      ∧ "X" ∉ getConn [("A", [""]), ("", ["X"]), ("X", ["T"])] "A") := by
  refine ⟨⟨by decide, ?_⟩, ⟨by decide, minWalk_self _ _⟩, by decide, by decide⟩
  exact Walk.step (by decide) (Walk.refl "B")

/-! ## C3: routeRequest -/

/-- Counterexample to C3 as stated: with an empty-string node name,
`findRoute` yields the non-none hop `""`, but `routeRequest` throws
`No route` (the JS falsy test `if (!via)` treats `""` like `null`) instead
of sending to the computed next hop. -/
theorem routeRequest_counterexample :
    findRoute "A" "T" [("A", [""]), ("", ["T"])] = some ""
    ∧ routeRequest ⟨"A", [""], [], [("A", [""]), ("", ["T"])], fun _ => none⟩
        "T" "ping" (Content.str "x") = .noRoute "T" := by
  constructor
  · decide
  · rfl

/-- C3 amended: `routeRequest` delegates directly to the Request/Retry
Engine when the target is a transport neighbor; otherwise it consults
`findNextHop` and fails with the `No route` error when the hop is `none` —
or the empty string, which the falsy test `if (!via)` conflates with
`none` — and else sends a "route" envelope `{target, type, content}` to the
computed next hop. -/
theorem routeRequest_spec (nest : Nest) (target rtype : String)
    (content : Content) :
    (target ∈ nest.neighbors →
      routeRequest nest target rtype content = .send target rtype content)
    ∧ (target ∉ nest.neighbors →
        findRoute nest.name target nest.connections = none →
        routeRequest nest target rtype content = .noRoute target)
    ∧ (target ∉ nest.neighbors →
        findRoute nest.name target nest.connections = some "" →
        routeRequest nest target rtype content = .noRoute target)
    ∧ (∀ v, target ∉ nest.neighbors →
        findRoute nest.name target nest.connections = some v → v ≠ "" →
        routeRequest nest target rtype content =
          .send v "route" (Content.route target rtype content)) := by
  refine ⟨?_, ?_, ?_, ?_⟩
  · intro hmem
    simp [routeRequest, hmem]
  · intro hmem hfr
    simp [routeRequest, hmem, hfr]
  · intro hmem hfr
    simp [routeRequest, hmem, hfr]
  · intro v hmem hfr hv
    simp [routeRequest, hmem, hfr, hv]

/-- Witness for C3's amended statement: direct delivery to a neighbor, a
missing route, the empty-string hop, and a forwarded "route" envelope. -/
theorem routeRequest_spec_witness :
    routeRequest ⟨"A", ["B"], [], [("A", ["B"]), ("B", ["A", "C"]), ("C", ["B"])],
        fun _ => none⟩ "B" "ping" (Content.str "x") =
      .send "B" "ping" (Content.str "x")
    ∧ routeRequest ⟨"A", ["B"], [], [("A", ["B"]), ("B", ["A", "C"]), ("C", ["B"])],
        fun _ => none⟩ "Z" "ping" (Content.str "x") = .noRoute "Z"
    ∧ routeRequest ⟨"A", [""], [], [("A", [""]), ("", ["T"])], fun _ => none⟩
        "T" "ping" (Content.str "x") = .noRoute "T"
    ∧ routeRequest ⟨"A", ["B"], [], [("A", ["B"]), ("B", ["A", "C"]), ("C", ["B"])],
        fun _ => none⟩ "C" "ping" (Content.str "x") =
      .send "B" "route" (Content.route "C" "ping" (Content.str "x")) := by
  refine ⟨?_, ?_, ?_, ?_⟩
  · exact (routeRequest_spec _ "B" "ping" (Content.str "x")).1 (by decide)
  · exact (routeRequest_spec _ "Z" "ping" (Content.str "x")).2.1 (by decide)
      (by decide)
  · exact (routeRequest_spec _ "T" "ping" (Content.str "x")).2.2.1 (by decide)
      (by decide)
  · exact (routeRequest_spec _ "C" "ping" (Content.str "x")).2.2.2 "B" (by decide)
      (by decide) (by decide)

end Chapter11
